import Mathlib

/-!
Verification of the layered-graph layout library (Sugiyama pipeline with a
Brandes–Köpf horizontal coordinate assigner).

The Go sources are shallowly embedded:
* Go `map` values are modelled as association lists (`List (key × value)`);
  reads use `List.lookup` with the Go zero value as default.  Theorems
  quantify over the list, so every map iteration order is covered.
* Go `map[...]bool` sets are modelled as `List` with `List.contains`.
* Go `int` / `uint64` values stay within machine range in all code paths the
  theorems exercise; they are modelled as `Nat` (ids, layers, orders, array
  indices) and `Int` (coordinates, shifts, sentinels).  Where Go arithmetic
  behaviour differs from the naive mathematical one (truncating division,
  two's-complement `&`), the model reproduces the Go behaviour and says so.
* `for` loops become folds, `while` loops with data-dependent exit become
  fuel recursion (the fuel is an upper bound on the iteration count; the
  construction functions return `Option` and yield `none` on exhaustion).
* Go's `sort.Slice` is modelled as a sort by the same comparison key; on the
  inputs of interest the keys are distinct, so any correct sort agrees.
-/

/-! ## Data model (src/layout/graph.go, part_000) -/

/-- Go `LayerPosition`: layer index and order within the layer.  Both are Go
`int`s that are only ever non-negative in the embedded code paths. -/
structure LayerPosition where
  Layer : Nat
  Order : Nat
deriving DecidableEq, Repr

/-- Go `LayeredGraph` (part_000).  Node ids are `uint64`, modelled as `Nat`. -/
structure LayeredGraph where
  Segments : List (Nat × Nat)
  Dummy : List Nat
  NodePosition : List (Nat × LayerPosition)
  Edges : List ((Nat × Nat) × List Nat)
deriving DecidableEq, Repr

/-- Reading `g.NodePosition[n]`: a missing key yields the Go zero value. -/
def LayeredGraph.pos (g : LayeredGraph) (n : Nat) : LayerPosition :=
  (g.NodePosition.lookup n).getD ⟨0, 0⟩

/-- Go `LayeredGraph.Validate`: returns the first segment whose endpoint
layers do not strictly descend (`from >= to`), i.e. the error case; `none`
models the `nil` (success) return. -/
def LayeredGraph.Validate (g : LayeredGraph) : Option (Nat × Nat) :=
  g.Segments.find? (fun e => (g.pos e.2).Layer ≤ (g.pos e.1).Layer)

/-- Go `LayeredGraph.IsInnerSegment`: both endpoints are dummy nodes. -/
def LayeredGraph.IsInnerSegment (g : LayeredGraph) (segment : Nat × Nat) : Bool :=
  g.Dummy.contains segment.1 && g.Dummy.contains segment.2

/-- Go `LayeredGraph.UpperNeighbors`.  The Go guard
`NodePosition[e[0]].Layer == NodePosition[e[1]].Layer - 1` over `int` is
written as `Layer e0 + 1 == Layer e1`, which is equivalent over the
integers. -/
def LayeredGraph.UpperNeighbors (g : LayeredGraph) (node : Nat) : List Nat :=
  (g.Segments.filter
    (fun e => e.2 == node && ((g.pos e.1).Layer + 1 == (g.pos e.2).Layer))).map (·.1)

/-- Go `LayeredGraph.LowerNeighbors`, verbatim: it filters segments with
`e[0] == node` and the same layer guard as `UpperNeighbors`, and then
appends `e[0]` (the queried node itself) to the result — not `e[1]`. -/
def LayeredGraph.LowerNeighbors (g : LayeredGraph) (node : Nat) : List Nat :=
  (g.Segments.filter
    (fun e => e.1 == node && ((g.pos e.1).Layer + 1 == (g.pos e.2).Layer))).map (·.1)

/-- Go `LayeredGraph.Layers`: the largest layer index appearing in
`NodePosition`. -/
def LayeredGraph.maxLayer (g : LayeredGraph) : Nat :=
  g.NodePosition.foldl (fun m p => max m p.2.Layer) 0

/-- Go `LayeredGraph.Layers`: bucket the nodes by layer, then sort each
bucket by `Order` (`IsLeftOf`).  `sort.Slice` is modelled by a stable
insertion sort; on per-layer-distinct orders any correct sort agrees. -/
def LayeredGraph.Layers (g : LayeredGraph) : List (List Nat) :=
  (List.range (g.maxLayer + 1)).map (fun l =>
    List.insertionSort (fun a b => (g.pos a).Order ≤ (g.pos b).Order)
      ((g.NodePosition.filter (fun p => p.2.Layer == l)).map (·.1)))

/-! ## Claim C3 — `Validate` checks direction only, not unit length -/

/-- Claim C3 helper: the property the claim says `Validate` enforces. -/
def unitSegments (g : LayeredGraph) : Prop :=
  ∀ e ∈ g.Segments, (g.pos e.2).Layer = (g.pos e.1).Layer + 1

instance (g : LayeredGraph) : Decidable (unitSegments g) := by
  unfold unitSegments; infer_instance

/-- A layered graph with a single segment spanning two layers downward. -/
def lgSpan2 : LayeredGraph :=
  { Segments := [(1, 2)]
    Dummy := []
    NodePosition := [(1, ⟨0, 0⟩), (2, ⟨2, 0⟩)]
    Edges := [((1, 2), [1, 2])] }

/-! ## Claim C5 — the BFS initializer's segment-roots are always empty

Go `BFSOrderingInitializer.Init` (part_003) first collects
`hasParent[e[1]] = true` for every segment `e`, and then, while scanning the
segments again, appends `e[1]` to `roots` whenever `hasParent[e[1]]` is
missing.  Since the first scan inserted `e[1]` for every segment, the test
never fires. -/

/-- The `hasParent` key set built by Go `BFSOrderingInitializer.Init`. -/
def bfsHasParent (segments : List (Nat × Nat)) : List Nat :=
  segments.map (·.2)

/-- The `roots` slice built by Go `BFSOrderingInitializer.Init`, verbatim:
the membership test is made on `e[1]`, the same key the first scan inserted. -/
def bfsInitRoots (segments : List (Nat × Nat)) : List Nat :=
  (segments.filter (fun e => !(bfsHasParent segments).contains e.2)).map (·.2)

/-! ## Claim C10 — `LowerNeighbors` returns the node itself -/

/-- A two-node layered graph with the single segment `(1, 2)`. -/
def lgTwoChain : LayeredGraph :=
  { Segments := [(1, 2)]
    Dummy := []
    NodePosition := [(1, ⟨0, 0⟩), (2, ⟨1, 0⟩)]
    Edges := [((1, 2), [1, 2])] }

/-! ## Layered graph construction (src/layout/graph.go)

Go `Graph` carries `Nodes map[NodeID]Node` and `Edges map[[2]NodeID]Edge`.
The embedded construction functions read only the key sets (node rectangles
and edge paths never influence layering), so the model keeps exactly the
keys. -/

/-- The key sets of Go `Graph`. -/
structure Graph where
  nodes : List Nat
  edges : List (Nat × Nat)
deriving DecidableEq, Repr

/-- Go `Graph.Roots`: nodes with no incoming edge (`hasParent` is built from
`e[1]` over all edges). -/
def Graph.RootsOf (g : Graph) : List Nat :=
  g.nodes.filter (fun n => !(g.edges.any (fun e => e.2 == n)))

/-- Go `assignLevels`' `neighbors` map: successors of `p` along edges. -/
def Graph.neighborsOf (g : Graph) (p : Nat) : List Nat :=
  (g.edges.filter (fun e => e.1 == p)).map (·.2)

/-- Go map assignment `m[n] = p` on an association list: overwrite the
existing binding or append a new one. -/
def storePos (m : List (Nat × LayerPosition)) (n : Nat) (p : LayerPosition) :
    List (Nat × LayerPosition) :=
  if m.any (fun q => q.1 == n) then
    m.map (fun q => if q.1 == n then (n, p) else q)
  else
    m ++ [(n, p)]

/-- Reading a position map with the Go zero value for missing keys. -/
def posIn (m : List (Nat × LayerPosition)) (n : Nat) : LayerPosition :=
  (m.lookup n).getD ⟨0, 0⟩

/-- One Go BFS relaxation: `if l := nodeYX[p].Layer + 1; l > nodeYX[child].Layer`
then `nodeYX[child] = {Layer: l, Order: 0}`.  The parent's layer is re-read
from the current map on every child, exactly as the Go loop does. -/
def relaxChild (p : Nat) (m : List (Nat × LayerPosition)) (child : Nat) :
    List (Nat × LayerPosition) :=
  if (posIn m p).Layer + 1 > (posIn m child).Layer then
    storePos m child ⟨(posIn m p).Layer + 1, 0⟩
  else m

/-- The Go BFS queue loop of `assignLevels`, with fuel: pop the head, relax
every child and append every child to the queue.  `none` = fuel exhausted
before the queue drained. -/
def bfsLoop (neighbors : Nat → List Nat) :
    Nat → List Nat → List (Nat × LayerPosition) → Option (List (Nat × LayerPosition))
  | 0, que, acc => if que.isEmpty then some acc else none
  | fuel + 1, que, acc =>
    match que with
    | [] => some acc
    | p :: rest =>
      let children := neighbors p
      let acc' := children.foldl (relaxChild p) acc
      bfsLoop neighbors fuel (rest ++ children) acc'

/-- Go `assignLevels`: for each root, seed it at layer 0 and run the BFS
relaxation until the queue drains. -/
def assignLevels (fuel : Nat) (g : Graph) : Option (List (Nat × LayerPosition)) :=
  go (g.RootsOf) []
where
  go : List Nat → List (Nat × LayerPosition) → Option (List (Nat × LayerPosition))
    | [], acc => some acc
    | root :: rest, acc => do
      let acc' ← bfsLoop (g.neighborsOf) fuel [root] (storePos acc root ⟨0, 0⟩)
      go rest acc'

/-- Go `maxNodeID`: the largest id among the *edge endpoints* (nodes that
touch no edge are not scanned). -/
def maxNodeID (g : Graph) : Nat :=
  g.edges.foldl (fun m e => max (max m e.1) e.2) 0

/-- Go `makeEdges`, processing a single edge: split a long edge by
allocating one dummy per intermediate layer from the counter, recording the
dummy positions.  Returns the chain, the updated position map and counter.
`(toLayer - fromLayer) > 1` over Go ints is `fromLayer + 1 < toLayer`. -/
def makeEdgeChain (m : List (Nat × LayerPosition)) (nextFake : Nat) (e : Nat × Nat) :
    List Nat × List (Nat × LayerPosition) × Nat :=
  let fromLayer := (posIn m e.1).Layer
  let toLayer := (posIn m e.2).Layer
  if fromLayer + 1 < toLayer then
    let mids := List.range' (fromLayer + 1) (toLayer - (fromLayer + 1))
    let fakes := List.range' nextFake mids.length
    let m' := (mids.zip fakes).foldl (fun acc p => storePos acc p.2 ⟨p.1, 0⟩) m
    (e.1 :: fakes ++ [e.2], m', nextFake + mids.length)
  else
    ([e.1, e.2], m, nextFake)

/-- Go `makeEdges`: split every edge, threading the dummy-id counter
(started at `maxNodeID + 1`) and the mutated position map. -/
def makeEdges (g : Graph) (m : List (Nat × LayerPosition)) :
    List ((Nat × Nat) × List Nat) × List (Nat × LayerPosition) :=
  let step := fun (st : List ((Nat × Nat) × List Nat) × List (Nat × LayerPosition) × Nat)
                  (e : Nat × Nat) =>
    let (chain, m', next') := makeEdgeChain st.2.1 st.2.2 e
    (st.1 ++ [(e, chain)], m', next')
  let res := g.edges.foldl step ([], m, maxNodeID g + 1)
  (res.1, res.2.1)

/-- Go `makeSegments`: every consecutive pair of a chain is a segment.  The
`len < 2` case panics in Go and is unreachable (chains always contain the
two endpoints); the model returns no segment for it. -/
def makeSegments (edges : List ((Nat × Nat) × List Nat)) : List (Nat × Nat) :=
  edges.flatMap (fun ec =>
    if ec.2.length == 2 then [ec.1]
    else if 2 < ec.2.length then ec.2.zip ec.2.tail
    else [])

/-- Go `makeDummy`: the interior chain entries of long edges. -/
def makeDummy (edges : List ((Nat × Nat) × List Nat)) : List Nat :=
  edges.flatMap (fun ec =>
    if 2 < ec.2.length then ec.2.tail.dropLast else [])

/-- Go `NewLayeredGraph`, with the BFS fuel made explicit. -/
def NewLayeredGraph (fuel : Nat) (g : Graph) : Option LayeredGraph := do
  let positions ← assignLevels fuel g
  let (edges, positions') := makeEdges g positions
  some { NodePosition := positions'
         Segments := makeSegments edges
         Dummy := makeDummy edges
         Edges := edges }

/-! ## Brandes–Köpf horizontal assigner (part_002)

`math.MaxInt` / `math.MinInt` sentinels and Go `int` coordinates are
modelled on `Int`; no code path exercised below leaves the int64 range. -/

def goMaxInt : Int := 9223372036854775807

def goMinInt : Int := -9223372036854775808

/-- Go `Neighbors`: the per-node sorted upper/lower neighbor lists.  The Go
maps are read with `nil` default, hence total functions. -/
structure Neighbors where
  Up : Nat → List Nat
  Down : Nat → List Nat

/-- Go `computeOrderedNeighbors`: collect segment endpoints, then sort each
list by the neighbour's `Order` (`IsLeftOf`). -/
def computeOrderedNeighbors (g : LayeredGraph) : Neighbors where
  Up := fun v =>
    List.insertionSort (fun a b => (g.pos a).Order ≤ (g.pos b).Order)
      ((g.Segments.filter (fun e => e.2 == v)).map (·.1))
  Down := fun v =>
    List.insertionSort (fun a b => (g.pos a).Order ≤ (g.pos b).Order)
      ((g.Segments.filter (fun e => e.1 == v)).map (·.2))

/-- Indexing `layers[i]`; Go panics out of range, the embedded inputs stay
in range, the model returns a default. -/
def layerAt (layers : List (List Nat)) (i : Nat) : List Nat := layers.getD i []

/-- Indexing `layers[i][j]` with the same convention. -/
def nodeAt (layers : List (List Nat)) (i j : Nat) : Nat := (layerAt layers i).getD j 0

/-- Go `preprocessing`'s scan for `upperNeighborInnerSegment`: the first
upper neighbour forming an inner segment with `v`, with the Go zero value
`0` when there is none (so a genuine dummy node with id 0 would be
indistinguishable from "none", exactly as in the source). -/
def upperNeighborInnerSegment (g : LayeredGraph) (n : Neighbors) (v : Nat) : Nat :=
  ((n.Up v).find? (fun u => g.IsInnerSegment (u, v))).getD 0

/-- Go `preprocessing`, inner marking step at position `l` of `nextLayer`:
mark `(u, v)` for every upper neighbour `u` of `nextLayer[l]` whose *index*
`k` in the neighbour list falls outside `[k0, k1]` — `v` being the node at
the checkpoint position `l1`, not `nextLayer[l]`. -/
def marksAt (n : Neighbors) (nextLayer : List Nat) (k0 k1 : Int) (v : Nat)
    (l : Nat) : List (Nat × Nat) :=
  ((n.Up (nextLayer.getD l 0)).enum.filter
    (fun ku => ((ku.1 : Int) < k0 || k1 < (ku.1 : Int)))).map (fun ku => (ku.2, v))

/-- Go `preprocessing`, one pair of adjacent layers: fold over `nextLayer`
with the state `(k0, l, marks)`. -/
def preprocessLayerPair (g : LayeredGraph) (n : Neighbors)
    (layerI nextLayer : List Nat) : List (Nat × Nat) :=
  (nextLayer.enum.foldl
    (fun (st : Int × Nat × List (Nat × Nat)) (lv : Nat × Nat) =>
      let (k0, l, acc) := st
      let (l1, v) := lv
      let uNIS := upperNeighborInnerSegment g n v
      if l1 == nextLayer.length - 1 || uNIS != 0 then
        let k1 : Int :=
          if uNIS != 0 then ((g.pos uNIS).Order : Int) else (layerI.length : Int) - 1
        (k1, l1 + 1, acc ++ (List.range' l (l1 + 1 - l)).flatMap (marksAt n nextLayer k0 k1 v))
      else (k0, l, acc))
    ((0 : Int), 0, [])).2.2

/-- Go `preprocessing` (Alg 1): sweep every pair of adjacent layers and
collect the marked `typeOneSegments`. -/
def preprocessing (g : LayeredGraph) (n : Neighbors) : List (Nat × Nat) :=
  let layers := g.Layers
  (List.range layers.length).flatMap (fun i =>
    if i == layers.length - 1 then []
    else preprocessLayerPair g n (layerAt layers i) (layerAt layers (i + 1)))

/-- One accepted alignment `align[u] = v; root[v] = root[u]; align[v] = root[v]`,
performed in the Go assignment order. -/
def acceptAlign (root align : Nat → Nat) (u v : Nat) : (Nat → Nat) × (Nat → Nat) :=
  let align1 := fun p => if p == u then v else align p
  let root1 := fun p => if p == v then root u else root p
  let align2 := fun p => if p == v then root1 v else align1 p
  (root1, align2)

/-- Go `TopLeft.verticalAlignment` (Alg 2): leftmost alignment with upper
neighbours; layers top to bottom, nodes left to right, `r` starts at `-1`. -/
def verticalAlignmentTL (g : LayeredGraph) (typeOne : List (Nat × Nat)) (n : Neighbors) :
    (Nat → Nat) × (Nat → Nat) :=
  let res := g.Layers.foldl
    (fun (ra : (Nat → Nat) × (Nat → Nat)) layer =>
      let res := layer.foldl
        (fun (st : ((Nat → Nat) × (Nat → Nat)) × Int) v =>
          let upN := n.Up v
          let d := upN.length
          if 0 < d then
            (List.range' ((d - 1) / 2) (min ((d + 1) / 2 + 1) d - (d - 1) / 2)).foldl
              (fun st2 m =>
                if st2.1.2 v == v then
                  let u := upN.getD m 0
                  if !typeOne.contains (u, v) && st2.2 < ((g.pos u).Order : Int) then
                    (acceptAlign st2.1.1 st2.1.2 u v, ((g.pos u).Order : Int))
                  else st2
                else st2) st
          else st)
        (ra, (-1 : Int))
      res.1)
    (id, id)
  res

/-- Go `TopRight.verticalAlignment` (Alg 2): rightmost alignment with upper
neighbours; nodes right to left, median candidates descending, `r` starts at
`math.MaxInt`. -/
def verticalAlignmentTR (g : LayeredGraph) (typeOne : List (Nat × Nat)) (n : Neighbors) :
    (Nat → Nat) × (Nat → Nat) :=
  let res := g.Layers.foldl
    (fun (ra : (Nat → Nat) × (Nat → Nat)) layer =>
      let res := layer.reverse.foldl
        (fun (st : ((Nat → Nat) × (Nat → Nat)) × Int) v =>
          let upN := n.Up v
          let d := upN.length
          if 0 < d then
            let first := if d ≤ (d + 1) / 2 then d - 1 else (d + 1) / 2
            ((List.range' ((d - 1) / 2) (first + 1 - (d - 1) / 2)).reverse).foldl
              (fun st2 m =>
                if st2.1.2 v == v then
                  let u := upN.getD m 0
                  if !typeOne.contains (u, v) && ((g.pos u).Order : Int) < st2.2 then
                    (acceptAlign st2.1.1 st2.1.2 u v, ((g.pos u).Order : Int))
                  else st2
                else st2) st
          else st)
        (ra, goMaxInt)
      res.1)
    (id, id)
  res

/-- Go `BottomLeft.verticalAlignment` (Alg 2): leftmost alignment with lower
neighbours; layers bottom to top. -/
def verticalAlignmentBL (g : LayeredGraph) (typeOne : List (Nat × Nat)) (n : Neighbors) :
    (Nat → Nat) × (Nat → Nat) :=
  let res := g.Layers.reverse.foldl
    (fun (ra : (Nat → Nat) × (Nat → Nat)) layer =>
      let res := layer.foldl
        (fun (st : ((Nat → Nat) × (Nat → Nat)) × Int) v =>
          let downN := n.Down v
          let d := downN.length
          if 0 < d then
            (List.range' ((d - 1) / 2) (min ((d + 1) / 2 + 1) d - (d - 1) / 2)).foldl
              (fun st2 m =>
                if st2.1.2 v == v then
                  let u := downN.getD m 0
                  if !typeOne.contains (v, u) && st2.2 < ((g.pos u).Order : Int) then
                    (acceptAlign st2.1.1 st2.1.2 u v, ((g.pos u).Order : Int))
                  else st2
                else st2) st
          else st)
        (ra, (-1 : Int))
      res.1)
    (id, id)
  res

/-- Go `BottomRight.verticalAlignment` (Alg 2): rightmost alignment with
lower neighbours; layers bottom to top, nodes right to left. -/
def verticalAlignmentBR (g : LayeredGraph) (typeOne : List (Nat × Nat)) (n : Neighbors) :
    (Nat → Nat) × (Nat → Nat) :=
  let res := g.Layers.reverse.foldl
    (fun (ra : (Nat → Nat) × (Nat → Nat)) layer =>
      let res := layer.reverse.foldl
        (fun (st : ((Nat → Nat) × (Nat → Nat)) × Int) v =>
          let downN := n.Down v
          let d := downN.length
          if 0 < d then
            let first := if d ≤ (d + 1) / 2 then d - 1 else (d + 1) / 2
            ((List.range' ((d - 1) / 2) (first + 1 - (d - 1) / 2)).reverse).foldl
              (fun st2 m =>
                if st2.1.2 v == v then
                  let u := downN.getD m 0
                  if !typeOne.contains (v, u) && ((g.pos u).Order : Int) < st2.2 then
                    (acceptAlign st2.1.1 st2.1.2 u v, ((g.pos u).Order : Int))
                  else st2
                else st2) st
          else st)
        (ra, goMaxInt)
      res.1)
    (id, id)
  res

/-- The mutable state of Go's Alg 3: the partial coordinate map `x` (absence
tracked, Go reads of missing keys yield 0), `sink` and `shift`. -/
structure CompState where
  x : Nat → Option Int
  sink : Nat → Nat
  shift : Nat → Int

/-- The body of the cyclic block walk of Go `TopLeft.placeBlock` /
`BottomLeft.placeBlock` (their Go bodies are textually identical), for the
current walk node `w`; `pb` is the recursive `placeBlock` at lower fuel. -/
def blockWalkBodyL (g : LayeredGraph) (root : Nat → Nat) (delta : Int)
    (layers : List (List Nat)) (pb : CompState → Nat → CompState)
    (st : CompState) (v w : Nat) : CompState :=
  if 0 < (g.pos w).Order then
    let u := root (nodeAt layers (g.pos w).Layer ((g.pos w).Order - 1))
    let st1 := pb st u
    let st2 :=
      if st1.sink v == v then
        { st1 with sink := fun p => if p == v then st1.sink u else st1.sink p }
      else st1
    if st2.sink v != st2.sink u then
      let s := (st2.x v).getD 0 - (st2.x u).getD 0 - delta
      if s < st2.shift (st2.sink u) then
        { st2 with shift := fun p => if p == st2.sink u then s else st2.shift p }
      else st2
    else
      let s := (st2.x u).getD 0 + delta
      if (st2.x v).getD 0 < s then
        { st2 with x := fun p => if p == v then some s else st2.x p }
      else st2
  else st

/-- The same walk body for Go `TopRight.placeBlock` / `BottomRight.placeBlock`:
successor at `Order + 1`, reversed signs, `max` accumulation on `shift`. -/
def blockWalkBodyR (g : LayeredGraph) (root : Nat → Nat) (delta : Int)
    (layers : List (List Nat)) (pb : CompState → Nat → CompState)
    (st : CompState) (v w : Nat) : CompState :=
  if (g.pos w).Order + 1 < (layerAt layers (g.pos w).Layer).length then
    let u := root (nodeAt layers (g.pos w).Layer ((g.pos w).Order + 1))
    let st1 := pb st u
    let st2 :=
      if st1.sink v == v then
        { st1 with sink := fun p => if p == v then st1.sink u else st1.sink p }
      else st1
    if st2.sink v != st2.sink u then
      let s := (st2.x v).getD 0 + (st2.x u).getD 0 + delta
      if st2.shift (st2.sink u) < s then
        { st2 with shift := fun p => if p == st2.sink u then s else st2.shift p }
      else st2
    else
      let s := (st2.x u).getD 0 - delta
      if s < (st2.x v).getD 0 then
        { st2 with x := fun p => if p == v then some s else st2.x p }
      else st2
  else st

/-- The cyclic do-while walk of Go `placeBlock`: run the body on `w`, step
`w = align[w]`, stop when `w` has returned to `v`. -/
def blockWalk (align : Nat → Nat) (body : CompState → Nat → Nat → CompState) :
    Nat → CompState → Nat → Nat → CompState
  | 0, st, _, _ => st
  | wf + 1, st, v, w =>
    let st1 := body st v w
    let w2 := align w
    if v == w2 then st1 else blockWalk align body wf st1 v w2

/-- The trailing propagation loop of Go `placeBlock`:
`for align[w] != v { w = align[w]; x[w] = x[v]; sink[w] = sink[v] }`. -/
def blockProp (align : Nat → Nat) : Nat → CompState → Nat → Nat → CompState
  | 0, st, _, _ => st
  | wf + 1, st, v, w =>
    if align w != v then
      let w2 := align w
      let st1 : CompState :=
        { x := fun p => if p == w2 then st.x v else st.x p
          sink := fun p => if p == w2 then st.sink v else st.sink p
          shift := st.shift }
      blockProp align wf st1 v w2
    else st

/-- Go `TopLeft.placeBlock` = `BottomLeft.placeBlock` (identical bodies),
with fuel for the recursion; `wfuel` bounds both inner loops. -/
def placeBlockL (g : LayeredGraph) (root align : Nat → Nat) (delta : Int)
    (layers : List (List Nat)) (wfuel : Nat) : Nat → CompState → Nat → CompState
  | 0, st, _ => st
  | fuel + 1, st, v =>
    match st.x v with
    | some _ => st
    | none =>
      let st0 := { st with x := fun p => if p == v then some 0 else st.x p }
      let st1 := blockWalk align
        (blockWalkBodyL g root delta layers (fun s u => placeBlockL g root align delta layers wfuel fuel s u))
        wfuel st0 v v
      blockProp align wfuel st1 v v

/-- Go `TopRight.placeBlock` = `BottomRight.placeBlock`. -/
def placeBlockR (g : LayeredGraph) (root align : Nat → Nat) (delta : Int)
    (layers : List (List Nat)) (wfuel : Nat) : Nat → CompState → Nat → CompState
  | 0, st, _ => st
  | fuel + 1, st, v =>
    match st.x v with
    | some _ => st
    | none =>
      let st0 := { st with x := fun p => if p == v then some 0 else st.x p }
      let st1 := blockWalk align
        (blockWalkBodyR g root delta layers (fun s u => placeBlockR g root align delta layers wfuel fuel s u))
        wfuel st0 v v
      blockProp align wfuel st1 v v

/-- The inner `for align[v] != root[v]` walk of the class-offset phase of Go
`TopLeft.horizontalCompaction` (`j++`) and `BottomLeft.horizontalCompaction`
(`j--`): state `(shift, v, j)`; `jstep` applies the direction's `j` update. -/
def classWalkL (g : LayeredGraph) (root align : Nat → Nat) (delta : Int)
    (layers : List (List Nat)) (x : Nat → Option Int) (sink : Nat → Nat)
    (jstep : Nat → Nat) : Nat → (Nat → Int) → Nat → Nat → (Nat → Int) × Nat × Nat
  | 0, shift, v, j => (shift, v, j)
  | f + 1, shift, v, j =>
    if align v != root v then
      let v1 := align v
      let j1 := jstep j
      let shift1 :=
        if 0 < (g.pos v1).Order then
          let u := nodeAt layers (g.pos v1).Layer ((g.pos v1).Order - 1)
          let shifted := shift (sink v1) + (x v1).getD 0 - ((x u).getD 0 + delta)
          if shifted < shift (sink u) then
            fun p => if p == sink u then shifted else shift p
          else shift
        else shift
      classWalkL g root align delta layers x sink jstep f shift1 v1 j1
    else (shift, v, j)

/-- Same inner walk for the Right variants (`Order + 1` successor, `max`
accumulation, `x[u] - delta`). -/
def classWalkR (g : LayeredGraph) (root align : Nat → Nat) (delta : Int)
    (layers : List (List Nat)) (x : Nat → Option Int) (sink : Nat → Nat)
    (jstep : Nat → Nat) : Nat → (Nat → Int) → Nat → Nat → (Nat → Int) × Nat × Nat
  | 0, shift, v, j => (shift, v, j)
  | f + 1, shift, v, j =>
    if align v != root v then
      let v1 := align v
      let j1 := jstep j
      let shift1 :=
        if (g.pos v1).Order + 1 < (layerAt layers j1).length then
          let u := nodeAt layers (g.pos v1).Layer ((g.pos v1).Order + 1)
          let shifted := shift (sink v1) + (x v1).getD 0 - ((x u).getD 0 - delta)
          if shift (sink u) < shifted then
            fun p => if p == sink u then shifted else shift p
          else shift
        else shift
      classWalkR g root align delta layers x sink jstep f shift1 v1 j1
    else (shift, v, j)

/-- The unconditional `for { ... }` loop of the Left class-offset phase:
walk a block, then hop to `k = Order(v) + 1` in the reached layer and stop
when past the end or in a different class.  The Go loop has no other exit,
so it need not terminate; exhausted fuel is reported as `none`. -/
def classLoopL (g : LayeredGraph) (root align : Nat → Nat) (delta : Int)
    (layers : List (List Nat)) (x : Nat → Option Int) (sink : Nat → Nat)
    (jstep : Nat → Nat) (wfuel : Nat) : Nat → (Nat → Int) → Nat → Nat → Option (Nat → Int)
  | 0, _, _, _ => none
  | f + 1, shift, j, k =>
    let v := nodeAt layers j k
    let (shift1, v1, j1) := classWalkL g root align delta layers x sink jstep wfuel shift v j
    let k1 := (g.pos v1).Order + 1
    if (layerAt layers j1).length ≤ k1 || sink v1 != sink (nodeAt layers j1 k1) then some shift1
    else classLoopL g root align delta layers x sink jstep wfuel f shift1 j1 k1

/-- The `for { ... }` loop of the Right class-offset phase (`k` moves left;
Go's `k < 0` exit over ints becomes a `k = 0` test before decrementing).
As for the Left variant, the loop need not terminate; exhausted fuel is
reported as `none`. -/
def classLoopR (g : LayeredGraph) (root align : Nat → Nat) (delta : Int)
    (layers : List (List Nat)) (x : Nat → Option Int) (sink : Nat → Nat)
    (jstep : Nat → Nat) (wfuel : Nat) : Nat → (Nat → Int) → Nat → Nat → Option (Nat → Int)
  | 0, _, _, _ => none
  | f + 1, shift, j, k =>
    let v := nodeAt layers j k
    let (shift1, v1, j1) := classWalkR g root align delta layers x sink jstep wfuel shift v j
    if (g.pos v1).Order == 0 then some shift1
    else
      let k1 := (g.pos v1).Order - 1
      if sink v1 != sink (nodeAt layers j1 k1) then some shift1
      else classLoopR g root align delta layers x sink jstep wfuel f shift1 j1 k1

/-- Go `TopLeft.horizontalCompaction` (Alg 3); `none` when a class-offset
loop exhausts its fuel. -/
def horizontalCompactionTL (g : LayeredGraph) (root align : Nat → Nat)
    (delta : Int) : Option (List (Nat × Int)) :=
  let layers := g.Layers
  let nfuel := g.NodePosition.length + 1
  let st0 : CompState := ⟨fun _ => none, fun v => v, fun _ => goMaxInt⟩
  let st1 := g.NodePosition.foldl
    (fun st p =>
      if root p.1 == p.1 then placeBlockL g root align delta layers nfuel nfuel st p.1
      else st) st0
  let shiftO := (List.range layers.length).foldl
    (fun (shiftO : Option (Nat → Int)) i =>
      match shiftO with
      | none => none
      | some shift =>
        let vfirst := (layerAt layers i).getD 0 0
        if st1.sink vfirst == vfirst then
          let shift0 :=
            if shift (st1.sink vfirst) == goMaxInt then
              fun p => if p == st1.sink vfirst then 0 else shift p
            else shift
          classLoopL g root align delta layers st1.x st1.sink (· + 1) nfuel nfuel shift0 i 0
        else some shift) (some st1.shift)
  shiftO.map (fun shiftF =>
    g.NodePosition.map (fun p => (p.1, (st1.x p.1).getD 0 + shiftF (st1.sink p.1))))

/-- Go `TopRight.horizontalCompaction` (Alg 3); `none` when a class-offset
loop exhausts its fuel. -/
def horizontalCompactionTR (g : LayeredGraph) (root align : Nat → Nat)
    (delta : Int) : Option (List (Nat × Int)) :=
  let layers := g.Layers
  let nfuel := g.NodePosition.length + 1
  let st0 : CompState := ⟨fun _ => none, fun v => v, fun _ => goMinInt⟩
  let st1 := g.NodePosition.foldl
    (fun st p =>
      if root p.1 == p.1 then placeBlockR g root align delta layers nfuel nfuel st p.1
      else st) st0
  let shiftO := (List.range layers.length).foldl
    (fun (shiftO : Option (Nat → Int)) i =>
      match shiftO with
      | none => none
      | some shift =>
        let layer := layerAt layers i
        let vfirst := layer.getD (layer.length - 1) 0
        if st1.sink vfirst == vfirst then
          let shift0 :=
            if shift (st1.sink vfirst) == goMinInt then
              fun p => if p == st1.sink vfirst then 0 else shift p
            else shift
          classLoopR g root align delta layers st1.x st1.sink (· + 1) nfuel nfuel shift0 i
            (layer.length - 1)
        else some shift) (some st1.shift)
  shiftO.map (fun shiftF =>
    g.NodePosition.map (fun p => (p.1, (st1.x p.1).getD 0 + shiftF (st1.sink p.1))))

/-- Go `BottomLeft.horizontalCompaction` (Alg 3): layers scanned bottom to
top, block walks move up (`j--`); `none` when a class-offset loop exhausts
its fuel. -/
def horizontalCompactionBL (g : LayeredGraph) (root align : Nat → Nat)
    (delta : Int) : Option (List (Nat × Int)) :=
  let layers := g.Layers
  let nfuel := g.NodePosition.length + 1
  let st0 : CompState := ⟨fun _ => none, fun v => v, fun _ => goMaxInt⟩
  let st1 := g.NodePosition.foldl
    (fun st p =>
      if root p.1 == p.1 then placeBlockL g root align delta layers nfuel nfuel st p.1
      else st) st0
  let shiftO := (List.range layers.length).reverse.foldl
    (fun (shiftO : Option (Nat → Int)) i =>
      match shiftO with
      | none => none
      | some shift =>
        let vfirst := (layerAt layers i).getD 0 0
        if st1.sink vfirst == vfirst then
          let shift0 :=
            if shift (st1.sink vfirst) == goMaxInt then
              fun p => if p == st1.sink vfirst then 0 else shift p
            else shift
          classLoopL g root align delta layers st1.x st1.sink (· - 1) nfuel nfuel shift0 i 0
        else some shift) (some st1.shift)
  shiftO.map (fun shiftF =>
    g.NodePosition.map (fun p => (p.1, (st1.x p.1).getD 0 + shiftF (st1.sink p.1))))

/-- Go `BottomRight.horizontalCompaction` (Alg 3); `none` when a
class-offset loop exhausts its fuel. -/
def horizontalCompactionBR (g : LayeredGraph) (root align : Nat → Nat)
    (delta : Int) : Option (List (Nat × Int)) :=
  let layers := g.Layers
  let nfuel := g.NodePosition.length + 1
  let st0 : CompState := ⟨fun _ => none, fun v => v, fun _ => goMinInt⟩
  let st1 := g.NodePosition.foldl
    (fun st p =>
      if root p.1 == p.1 then placeBlockR g root align delta layers nfuel nfuel st p.1
      else st) st0
  let shiftO := (List.range layers.length).reverse.foldl
    (fun (shiftO : Option (Nat → Int)) i =>
      match shiftO with
      | none => none
      | some shift =>
        let layer := layerAt layers i
        let vfirst := layer.getD (layer.length - 1) 0
        if st1.sink vfirst == vfirst then
          let shift0 :=
            if shift (st1.sink vfirst) == goMinInt then
              fun p => if p == st1.sink vfirst then 0 else shift p
            else shift
          classLoopR g root align delta layers st1.x st1.sink (· - 1) nfuel nfuel shift0 i
            (layer.length - 1)
        else some shift) (some st1.shift)
  shiftO.map (fun shiftF =>
    g.NodePosition.map (fun p => (p.1, (st1.x p.1).getD 0 + shiftF (st1.sink p.1))))

/-- Go `LayoutResult`. -/
structure LayoutResult where
  x : List (Nat × Int)
  minX : Int
  maxX : Int

/-- Go `LayoutResult.width`. -/
def LayoutResult.width (r : LayoutResult) : Int := r.maxX - r.minX

/-- Go `runAlgo`'s min/max scan over the produced coordinates. -/
def mkLayoutResult (xs : List (Nat × Int)) : LayoutResult :=
  { x := xs
    minX := xs.foldl (fun m p => if p.2 < m then p.2 else m) goMaxInt
    maxX := xs.foldl (fun m p => if m < p.2 then p.2 else m) goMinInt }

/-- Go `BrandesKopfLayersNodesHorizontalAssigner`. -/
structure BrandesKopfLayersNodesHorizontalAssigner where
  Delta : Int
  TopDownOnly : Bool

/-- Go `runAlgo` for each of the four directions; `none` propagates a
non-terminating class-offset loop. -/
def runAlgoTL (g : LayeredGraph) (t1 : List (Nat × Nat)) (n : Neighbors)
    (delta : Int) : Option LayoutResult :=
  let ra := verticalAlignmentTL g t1 n
  (horizontalCompactionTL g ra.1 ra.2 delta).map mkLayoutResult

def runAlgoTR (g : LayeredGraph) (t1 : List (Nat × Nat)) (n : Neighbors)
    (delta : Int) : Option LayoutResult :=
  let ra := verticalAlignmentTR g t1 n
  (horizontalCompactionTR g ra.1 ra.2 delta).map mkLayoutResult

def runAlgoBL (g : LayeredGraph) (t1 : List (Nat × Nat)) (n : Neighbors)
    (delta : Int) : Option LayoutResult :=
  let ra := verticalAlignmentBL g t1 n
  (horizontalCompactionBL g ra.1 ra.2 delta).map mkLayoutResult

def runAlgoBR (g : LayeredGraph) (t1 : List (Nat × Nat)) (n : Neighbors)
    (delta : Int) : Option LayoutResult :=
  let ra := verticalAlignmentBR g t1 n
  (horizontalCompactionBR g ra.1 ra.2 delta).map mkLayoutResult

/-- Go `NodesHorizontalCoordinates`: run the four (or two) directional
algorithms, pick the narrowest as reference, shift Left runs to its `minX`
and Right runs to its `maxX`, and take per node the mean of the two middle
candidates.  Go's `/ 2` on `int` truncates toward zero, hence `Int.tdiv`;
`none` means some directional run never left its class-offset loop. -/
def BrandesKopfLayersNodesHorizontalAssigner.NodesHorizontalCoordinates
    (s : BrandesKopfLayersNodesHorizontalAssigner) (g : LayeredGraph) :
    Option (List (Nat × Int)) := do
  let n := computeOrderedNeighbors g
  let t1 := preprocessing g n
  let resTL ← runAlgoTL g t1 n s.Delta
  let resTR ← runAlgoTR g t1 n s.Delta
  let resBL ← if s.TopDownOnly then some resTL else runAlgoBL g t1 n s.Delta
  let resBR ← if s.TopDownOnly then some resTR else runAlgoBR g t1 n s.Delta
  let best := resTL
  let best := if resTR.width < best.width then resTR else best
  let best := if resBL.width < best.width then resBL else best
  let best := if resBR.width < best.width then resBR else best
  let shiftTL := best.minX - resTL.minX
  let shiftTR := best.maxX - resTR.maxX
  let shiftBL := best.minX - resBL.minX
  let shiftBR := best.maxX - resBR.maxX
  some (g.NodePosition.map (fun p =>
    let place := List.insertionSort (fun a b => a ≤ b)
      [(resTL.x.lookup p.1).getD 0 + shiftTL, (resTR.x.lookup p.1).getD 0 + shiftTR,
       (resBL.x.lookup p.1).getD 0 + shiftBL, (resBR.x.lookup p.1).getD 0 + shiftBR]
    (p.1, Int.tdiv (place.getD 1 0 + place.getD 2 0) 2)))

/-! ## Claim C1 — the combined layout can drop below `delta` separation -/

/-- Two layers `[1, 2]` over `[3, 4]` with segments `(1,3)` and `(1,4)`;
orders form permutations of `{0, 1}` on both layers. -/
def lgFork : LayeredGraph :=
  { Segments := [(1, 3), (1, 4)]
    Dummy := []
    NodePosition := [(1, ⟨0, 0⟩), (2, ⟨0, 1⟩), (3, ⟨1, 0⟩), (4, ⟨1, 1⟩)]
    Edges := [((1, 3), [1, 3]), ((1, 4), [1, 4])] }

/-! ## Claim C6 — preprocessing marks an inner segment -/

/-- Layer 0 `[1, 2, 3]` over layer 1 `[4, 5]`, with the inner segments
`(2,4)` and `(3,5)` (nodes 2, 3, 4, 5 all dummy). -/
def lgInnerPair : LayeredGraph :=
  { Segments := [(2, 4), (3, 5)]
    Dummy := [2, 3, 4, 5]
    NodePosition := [(1, ⟨0, 0⟩), (2, ⟨0, 1⟩), (3, ⟨0, 2⟩), (4, ⟨1, 0⟩), (5, ⟨1, 1⟩)]
    Edges := [] }

/-! ## Claim C4 — dummy ids can collide with isolated node ids -/

/-- Nodes `{1, 2, 3, 4}` where node 4 touches no edge, and a transitive
triangle `1→2→3`, `1→3` whose long edge needs one dummy node. -/
def gIsolated4 : Graph :=
  { nodes := [1, 2, 3, 4], edges := [(1, 2), (2, 3), (1, 3)] }

/-! ## Fenwick tree and crossing counting (part_003)

The Go `FenwickTree` is a slice `[]int` of length `nbElements + 1`
(`NewFenwickTree`); it is modelled by a total function together with the
explicit length bound.  `idx & (-idx)` on a positive two's-complement `int`
equals the lowest set bit of `idx`, which for `idx ≥ 1` is
`Nat.ldiff idx (idx - 1)`; the bridge `lowbit_go` below checks this against
the literal `Int.land idx (-idx)`. -/

def lowbit (n : Nat) : Nat := Nat.ldiff n (n - 1)

/-- Go `FenwickTree.Update` with explicit fuel: `for ; idx < len(bit); idx += idx & (-idx)`. -/
def fenUpdate (len : Nat) : Nat → (Nat → Int) → Nat → Int → (Nat → Int)
  | 0, t, _, _ => t
  | f + 1, t, idx, value =>
    if idx < len then
      fenUpdate len f (fun p => if p == idx then t p + value else t p) (idx + lowbit idx) value
    else t

/-- Go `FenwickTree.Query` with explicit fuel: `for ; idx > 0; idx -= idx & (-idx)`. -/
def fenQuery : Nat → (Nat → Int) → Nat → Int
  | 0, _, _ => 0
  | f + 1, t, idx => if 0 < idx then t idx + fenQuery f t (idx - lowbit idx) else 0

/-- The cells touched by `fenUpdate`. -/
def uChain (len : Nat) : Nat → Nat → List Nat
  | 0, _ => []
  | f + 1, idx => if idx < len then idx :: uChain len f (idx + lowbit idx) else []

/-- The cells read by `fenQuery`. -/
def qChain : Nat → Nat → List Nat
  | 0, _ => []
  | f + 1, q => if 0 < q then q :: qChain f (q - lowbit q) else []

/-- Prefix sums of a cell-count function: the value `Query(q)` must report. -/
def Spre (c : Nat → Int) (q : Nat) : Int := ((List.range q).map c).sum

/-- The body of the inner (top-layer) loop of `numCrossingsBetweenLayers`
for bottom node index `i`, abstracted over the segment test `Pb`. -/
def crossStep (Pb : Nat → Nat → Bool) (n i : Nat) (st : Int × (Nat → Int)) (j : Nat) :
    Int × (Nat → Int) :=
  if Pb j i then
    let t1 := fenUpdate (n + 1) (n + 1) st.2 (j + 1) 1
    (st.1 + fenQuery j t1 j, t1)
  else st

/-- The Fenwick-state invariant: every prefix query reports the prefix sums
of the recorded-cell counts `c`. -/
def FenInv (n : Nat) (t : Nat → Int) (c : Nat → Int) : Prop :=
  ∀ q, q < n + 1 → fenQuery q t q = Spre c q

/-- Go `numCrossingsBetweenLayers`. -/
def numCrossingsBetweenLayers (segments : List (Nat × Nat))
    (ltop lbottom : List Nat) : Int :=
  ((List.range lbottom.length).reverse.foldl
    (fun st i =>
      (List.range ltop.length).reverse.foldl
        (crossStep (fun j r => segments.contains (ltop.getD j 0, lbottom.getD r 0))
          ltop.length i) st)
    ((0 : Int), fun _ => (0 : Int))).1

/-- Go `numCrossings`: sum the pairwise counts over adjacent layers. -/
def numCrossings (segments : List (Nat × Nat)) (layers : List (List Nat)) : Int :=
  (List.range layers.length).foldl
    (fun count i =>
      if i == 0 then count
      else count + numCrossingsBetweenLayers segments (layerAt layers (i - 1))
        (layerAt layers i))
    0

/-- Recorded-cell counts after processing the bottom indices in `R`. -/
def cAcc (Pb : Nat → Nat → Bool) (R : List Nat) : Nat → Int :=
  fun j => ((R.filter (fun i => Pb j i)).length : Int)

/-- The crossings contributed by bottom index `i` against already-processed
bottom indices `R`. -/
def colsum (Pb : Nat → Nat → Bool) (n : Nat) (R : List Nat) (i : Nat) : Int :=
  ((((List.range n).reverse).filter (fun j => Pb j i)).map
    (fun j => Spre (cAcc Pb R) j)).sum

/-- Total crossings after processing the bottom indices of `R`
(chronologically last processed first). -/
def GAcc (Pb : Nat → Nat → Bool) (n : Nat) : List Nat → Int
  | [] => 0
  | i :: R => GAcc Pb n R + colsum Pb n R i

/-- One quadruple's contribution to the naive crossing count. -/
def crossTerm (Pb : Nat → Nat → Bool) (j1 i1 j2 i2 : Nat) : Int :=
  if j1 < j2 ∧ i2 < i1 ∧ Pb j1 i1 = true ∧ Pb j2 i2 = true then 1 else 0

/-- The naive crossing count restricted to a set `S` of bottom indices. -/
def naiveSum (Pb : Nat → Nat → Bool) (n : Nat) (S : Finset Nat) : Int :=
  ∑ j1 ∈ Finset.range n, ∑ i1 ∈ S, ∑ j2 ∈ Finset.range n, ∑ i2 ∈ S,
    crossTerm Pb j1 i1 j2 i2

/-- Modelled from the spec: the number of pairs of segments `(a, c)`, `(b, d)`
running from `ltop` to `lbottom` such that `a` is left of `b` in the top
layer while `d` is left of `c` in the bottom layer. -/
def naiveCrossings (segments : List (Nat × Nat))
    (ltop lbottom : List Nat) : Nat :=
  (((Finset.range ltop.length ×ˢ Finset.range lbottom.length) ×ˢ
    (Finset.range ltop.length ×ˢ Finset.range lbottom.length)).filter
      (fun q => q.1.1 < q.2.1 ∧ q.2.2 < q.1.2 ∧
        segments.contains (ltop.getD q.1.1 0, lbottom.getD q.1.2 0) = true ∧
        segments.contains (ltop.getD q.2.1 0, lbottom.getD q.2.2 0) = true)).card

/-! ## Layered construction: domain membership and chain invariants -/

/-- Domain membership for a position map (Go: key present). -/
def inDom (m : List (Nat × LayerPosition)) (n : Nat) : Prop :=
  (m.lookup n).isSome

/-- The worklist invariant of `assignLevels`: every edge whose source is
assigned is either satisfied (target assigned at least one layer deeper) or
has its source pending. -/
def EInv (g : Graph) (acc : List (Nat × LayerPosition)) (P : List Nat) : Prop :=
  ∀ e ∈ g.edges, inDom acc e.1 →
    (inDom acc e.2 ∧ (posIn acc e.1).Layer + 1 ≤ (posIn acc e.2).Layer) ∨ e.1 ∈ P

/-- Every consecutive pair of `chain` ascends exactly one layer in `m`. -/
def chainGood (m : List (Nat × LayerPosition)) (chain : List Nat) : Prop :=
  ∀ k, k + 1 < chain.length →
    (posIn m (chain.getD (k + 1) 0)).Layer = (posIn m (chain.getD k 0)).Layer + 1

/-- The invariant carried through the `makeEdges` fold: the dummy counter
stays above every original edge endpoint, original entries of the position
map are untouched, and every recorded chain steps one layer at a time. -/
def MInv (g : Graph) (m0 : List (Nat × LayerPosition))
    (st : List ((Nat × Nat) × List Nat) × List (Nat × LayerPosition) × Nat) : Prop :=
  maxNodeID g < st.2.2 ∧
  (∀ x, x ≤ maxNodeID g → st.2.1.lookup x = m0.lookup x) ∧
  ∀ ec ∈ st.1, chainGood st.2.1 ec.2 ∧ (∀ x ∈ ec.2, x < st.2.2) ∧
    (ec.2.length = 2 → ec.2 = [ec.1.1, ec.1.2]) ∧ 2 ≤ ec.2.length

/-- A three-node triangle graph `1 → 2 → 3`, `1 → 3`; the long edge gets one
dummy node. -/
def gC2 : Graph := ⟨[1, 2, 3], [(1, 2), (2, 3), (1, 3)]⟩

/-- The layered graph `NewLayeredGraph` builds from `gC2`. -/
def lgC2 : LayeredGraph :=
  { Segments := [(1, 2), (2, 3), (1, 4), (4, 3)]
    Dummy := [4]
    NodePosition := [(1, ⟨0, 0⟩), (2, ⟨1, 0⟩), (3, ⟨2, 0⟩), (4, ⟨1, 0⟩)]
    Edges := [((1, 2), [1, 2]), ((2, 3), [2, 3]), ((1, 3), [1, 4, 3])] }

/-! ## Warfield ordering optimizer (part_003) -/

/-- Go `newLayersFrom`: a fresh deep copy of the layer stack; on immutable
lists this is the identity. -/
def newLayersFrom (src : List (List Nat)) : List (List Nat) := src

/-- Go `copy(dst, src)` on one row: `min(len(dst), len(src))` elements are
copied onto the prefix of `dst`, whose tail is kept. -/
def copyRow (dst src : List Nat) : List Nat :=
  src.take (min dst.length src.length) ++ dst.drop (min dst.length src.length)

/-- Go `copyLayers`: `for i := range src { copy(dst[i], src[i]) }`.  Rows of
`dst` beyond `len(src)` are kept.  (`len(dst) < len(src)` would panic in Go
and is unreachable here: both stacks always have the `Layers()` shape.) -/
def copyLayers : List (List Nat) → List (List Nat) → List (List Nat)
  | [], _ => []
  | d, [] => d
  | d :: ds, s :: ss => copyRow d s :: copyLayers ds ss

/-- Go `WarfieldOrderingOptimizer`: the two strategy interfaces become
function fields (`Init` and layer `Optimize`, both pure). -/
structure WarfieldOrderingOptimizer where
  Epochs : Nat
  LayerOrderingInitializer : List (Nat × Nat) → List (List Nat) → List (List Nat)
  LayerOrderingOptimizer : List (Nat × Nat) → List (List Nat) → Nat → Bool → List (List Nat)

/-- One Warfield epoch's sweep over all layer indices, reversed on down-up
epochs: `j := i; if downUp { j = len(layers) - 1 - i }`. -/
def warfieldSweep (o : WarfieldOrderingOptimizer) (segments : List (Nat × Nat))
    (layers : List (List Nat)) (downUp : Bool) : List (List Nat) :=
  (List.range layers.length).foldl
    (fun ls i =>
      o.LayerOrderingOptimizer segments ls
        (if downUp then layers.length - 1 - i else i) downUp) layers

/-- The Warfield epoch loop: sweep, track the best layer stack by crossing
count (`bestN = -1` is the Go sentinel), stop early at zero crossings. -/
def warfieldLoop (o : WarfieldOrderingOptimizer) (segments : List (Nat × Nat)) :
    Nat → Nat → List (List Nat) → Int → List (List Nat) → List (List Nat)
  | 0, _, _, _, best => best
  | rem + 1, t, layers, bestN, best =>
    let layers' := warfieldSweep o segments layers (t % 2 == 0)
    let N := numCrossings segments layers'
    let best' := if bestN < 0 ∨ N < bestN then copyLayers best layers' else best
    let bestN' := if bestN < 0 ∨ N < bestN then N else bestN
    if N == 0 then best'
    else warfieldLoop o segments rem (t + 1) layers' bestN' best'

/-- The write-back inner loop of Go `Optimize`:
`for x, node := range layer { lg.NodePosition[node] = {Layer: y, Order: x} }`. -/
def storeRow (y : Nat) : List (Nat × LayerPosition) → Nat → List Nat →
    List (Nat × LayerPosition)
  | m, _, [] => m
  | m, x, n :: ns => storeRow y (storePos m n ⟨y, x⟩) (x + 1) ns

/-- The write-back outer loop of Go `Optimize` over `bestLayers`. -/
def storeLayers : List (Nat × LayerPosition) → Nat → List (List Nat) →
    List (Nat × LayerPosition)
  | m, _, [] => m
  | m, y, row :: rows => storeLayers (storeRow y m 0 row) (y + 1) rows

/-- Go `WarfieldOrderingOptimizer.Optimize` (its `g Graph` argument is
never read and is omitted): initialize the layer ordering, run the epochs,
write the best stack back into `NodePosition`. -/
def WarfieldOrderingOptimizer.Optimize (o : WarfieldOrderingOptimizer)
    (lg : LayeredGraph) : LayeredGraph :=
  let layers := o.LayerOrderingInitializer lg.Segments lg.Layers
  let best := warfieldLoop o lg.Segments o.Epochs 0 layers (-1) (newLayersFrom layers)
  { lg with NodePosition := storeLayers lg.NodePosition 0 best }

/-- A Warfield optimizer with identity strategies and one epoch. -/
def oC7 : WarfieldOrderingOptimizer :=
  { Epochs := 1
    LayerOrderingInitializer := fun _ ls => ls
    LayerOrderingOptimizer := fun _ ls _ _ => ls }

/-- A two-layer graph for exercising `Optimize`. -/
def lgC7 : LayeredGraph :=
  { Segments := [(1, 3)]
    Dummy := []
    NodePosition := [(1, ⟨0, 0⟩), (2, ⟨0, 1⟩), (3, ⟨1, 0⟩)]
    Edges := [((1, 3), [1, 3])] }

/-! ## Claim C9 — a layered graph on which the class-offset loop cycles -/

/-- A layered graph whose nodes `1` and `2` share `(layer 0, order 0)`.
Nothing in `LayeredGraph` forbids this, and with the tie the `for { }`
class-offset loop of `BottomLeft.horizontalCompaction` revisits the same
`(j, k)` state forever. -/
def lgIterA : LayeredGraph :=
  { Segments := [(1, 4), (2, 4), (3, 4), (2, 5), (3, 5)]
    Dummy := []
    NodePosition := [(1, ⟨0, 0⟩), (2, ⟨0, 0⟩), (3, ⟨0, 1⟩), (4, ⟨1, 0⟩), (5, ⟨1, 1⟩)]
    Edges := [] }

/-- The neighbour lists `NodesHorizontalCoordinates` computes for
`lgIterA`. -/
def nC9 : Neighbors := computeOrderedNeighbors lgIterA

/-- The type-1 marks `NodesHorizontalCoordinates` computes for `lgIterA`. -/
def t1C9 : List (Nat × Nat) := preprocessing lgIterA nC9

/-- The `(root, align)` pair the BottomLeft run computes for `lgIterA`. -/
def raC9 : (Nat → Nat) × (Nat → Nat) := verticalAlignmentBL lgIterA t1C9 nC9

/-- The fuel `horizontalCompactionBL` allots per loop on `lgIterA`. -/
def nfC9 : Nat := lgIterA.NodePosition.length + 1

/-- The state after the block-placement phase of
`horizontalCompactionBL lgIterA raC9.1 raC9.2 1`, copied verbatim from that
definition. -/
def st1C9 : CompState :=
  lgIterA.NodePosition.foldl
    (fun st p =>
      if raC9.1 p.1 == p.1 then
        placeBlockL lgIterA raC9.1 raC9.2 1 lgIterA.Layers nfC9 nfC9 st p.1
      else st) ⟨fun _ => none, fun v => v, fun _ => goMaxInt⟩

/-! ## Supporting lemmas: the lowest set bit -/

theorem ldiff_zero_zero : Nat.ldiff 0 0 = 0 := by
  apply Nat.eq_of_testBit_eq
  intro i
  rw [Nat.testBit_ldiff]
  simp

theorem lowbit_go (n : Nat) : (lowbit n : Int) = Int.land (n : Int) (-(n : Int)) := by
  cases n with
  | zero =>
    show ((Nat.ldiff 0 0 : Nat) : Int) = Int.land 0 (-0)
    rw [ldiff_zero_zero]
    rfl
  | succ k =>
    have h : -((k + 1 : Nat) : Int) = Int.negSucc k := rfl
    rw [h]
    rfl

theorem lowbit_zero : lowbit 0 = 0 := ldiff_zero_zero

theorem lowbit_odd (m : Nat) : lowbit (2 * m + 1) = 1 := by
  unfold lowbit
  apply Nat.eq_of_testBit_eq
  intro i
  rw [Nat.testBit_ldiff]
  cases i with
  | zero =>
    simp only [Nat.testBit_zero]
    have h1 : (2 * m + 1) % 2 = 1 := by omega
    have h2 : (2 * m + 1 - 1) % 2 = 0 := by omega
    simp [h1, h2]
  | succ i =>
    rw [Nat.testBit_succ, Nat.testBit_succ, Nat.testBit_succ]
    have h1 : (2 * m + 1) / 2 = m := by omega
    have h2 : (2 * m + 1 - 1) / 2 = m := by omega
    have h3 : (1 : Nat) / 2 = 0 := by omega
    rw [h1, h2, h3, Nat.zero_testBit]
    simp

theorem lowbit_even (m : Nat) (hm : 0 < m) : lowbit (2 * m) = 2 * lowbit m := by
  unfold lowbit
  apply Nat.eq_of_testBit_eq
  intro i
  rw [Nat.testBit_ldiff]
  cases i with
  | zero =>
    simp only [Nat.testBit_zero]
    have h1 : (2 * m) % 2 = 0 := by omega
    have h2 : (2 * Nat.ldiff m (m - 1)) % 2 = 0 := by omega
    simp [h1, h2]
  | succ i =>
    rw [Nat.testBit_succ, Nat.testBit_succ, Nat.testBit_succ]
    have h1 : 2 * m / 2 = m := by omega
    have h2 : (2 * m - 1) / 2 = m - 1 := by omega
    have h3 : 2 * Nat.ldiff m (m - 1) / 2 = Nat.ldiff m (m - 1) := by omega
    rw [h1, h2, h3, Nat.testBit_ldiff]

theorem lowbit_pos {n : Nat} (hn : 0 < n) : 0 < lowbit n := by
  induction n using Nat.strong_induction_on with
  | _ n ih =>
    rcases Nat.even_or_odd n with ⟨m, hm⟩ | ⟨m, hm⟩
    · have hm' : n = 2 * m := by omega
      have hmpos : 0 < m := by omega
      rw [hm', lowbit_even m hmpos]
      have := ih m (by omega) hmpos
      omega
    · rw [hm, lowbit_odd]
      omega

theorem lowbit_le {n : Nat} : lowbit n ≤ n := by
  induction n using Nat.strong_induction_on with
  | _ n ih =>
    match n with
    | 0 => simp [lowbit_zero]
    | n + 1 =>
      rcases Nat.even_or_odd (n + 1) with ⟨m, hm⟩ | ⟨m, hm⟩
      · have hm' : n + 1 = 2 * m := by omega
        have hmpos : 0 < m := by omega
        rw [hm', lowbit_even m hmpos]
        have := ih m (by omega)
        omega
      · have hm' : n + 1 = 2 * m + 1 := by omega
        rw [hm', lowbit_odd]
        omega

theorem lowbit_sub {p r : Nat} (hr : 0 < r) (hlt : r < lowbit p) :
    lowbit (p - r) = lowbit r := by
  induction p using Nat.strong_induction_on generalizing r with
  | _ p ih =>
    match p with
    | 0 => rw [lowbit_zero] at hlt; omega
    | p + 1 =>
      rcases Nat.even_or_odd (p + 1) with ⟨m, hm⟩ | ⟨m, hm⟩
      · have hm' : p + 1 = 2 * m := by omega
        have hmpos : 0 < m := by omega
        rw [hm', lowbit_even m hmpos] at hlt
        rw [hm']
        rcases Nat.even_or_odd r with ⟨s, hs⟩ | ⟨s, hs⟩
        · have hs' : r = 2 * s := by omega
          have hspos : 0 < s := by omega
          have hslt : s < lowbit m := by omega
          have hsub : 2 * m - r = 2 * (m - s) := by omega
          have hms : 0 < m - s := by
            have := lowbit_le (n := m); omega
          rw [hsub, hs', lowbit_even _ hms, lowbit_even _ hspos]
          rw [ih m (by omega) hspos hslt]
        · have hs' : r = 2 * s + 1 := by omega
          have hle := lowbit_le (n := m)
          have hsub : 2 * m - r = 2 * (m - s - 1) + 1 := by omega
          rw [hsub, hs', lowbit_odd, lowbit_odd]
      · have hm' : p + 1 = 2 * m + 1 := by omega
        rw [hm', lowbit_odd] at hlt
        omega

theorem lowbit_add {p : Nat} (hp : 0 < p) :
    2 * lowbit p ≤ lowbit (p + lowbit p) := by
  induction p using Nat.strong_induction_on with
  | _ p ih =>
    rcases Nat.even_or_odd p with ⟨m, hm⟩ | ⟨m, hm⟩
    · have hm' : p = 2 * m := by omega
      have hmpos : 0 < m := by omega
      rw [hm', lowbit_even m hmpos]
      have h2 : 2 * m + 2 * lowbit m = 2 * (m + lowbit m) := by omega
      rw [h2, lowbit_even _ (by have := lowbit_pos hmpos; omega)]
      have := ih m (by omega) hmpos
      omega
    · have hm' : p = 2 * m + 1 := by omega
      rw [hm', lowbit_odd]
      have h2 : 2 * m + 1 + 1 = 2 * (m + 1) := by omega
      rw [h2, lowbit_even _ (by omega)]
      have := lowbit_pos (n := m + 1) (by omega)
      omega

theorem lowbit_reach {idx p : Nat} (hidx : 0 < idx) (hlt : idx < p)
    (hsub : p - lowbit p < idx) : idx + lowbit idx ≤ p := by
  have hr1 : 0 < p - idx := by omega
  have hple := lowbit_le (n := p)
  have hr2 : p - idx < lowbit p := by omega
  have h := lowbit_sub hr1 hr2
  have h2 : p - (p - idx) = idx := by omega
  rw [h2] at h
  have := lowbit_le (n := p - idx)
  omega

/-! ## Supporting lemmas: Fenwick tree correctness -/

theorem uChain_lb {len : Nat} : ∀ {f idx : Nat}, ∀ p ∈ uChain len f idx, idx ≤ p := by
  intro f
  induction f with
  | zero => intro idx p hp; simp [uChain] at hp
  | succ f ih =>
    intro idx p hp
    rw [uChain] at hp
    by_cases h : idx < len
    · simp only [if_pos h, List.mem_cons] at hp
      rcases hp with rfl | hp
      · exact le_refl _
      · have := ih p hp; omega
    · simp [if_neg h] at hp

theorem uChain_lt_len {len : Nat} : ∀ {f idx : Nat}, ∀ p ∈ uChain len f idx, p < len := by
  intro f
  induction f with
  | zero => intro idx p hp; simp [uChain] at hp
  | succ f ih =>
    intro idx p hp
    rw [uChain] at hp
    by_cases h : idx < len
    · simp only [if_pos h, List.mem_cons] at hp
      rcases hp with rfl | hp
      · exact h
      · exact ih p hp
    · simp [if_neg h] at hp

theorem uChain_sub_lt {len : Nat} :
    ∀ {f idx bound : Nat}, 0 < idx → idx - lowbit idx < bound → bound ≤ idx →
      ∀ p ∈ uChain len f idx, p - lowbit p < bound := by
  intro f
  induction f with
  | zero => intro idx bound _ _ _ p hp; simp [uChain] at hp
  | succ f ih =>
    intro idx bound h0 hb hbi p hp
    rw [uChain] at hp
    by_cases h : idx < len
    · simp only [if_pos h, List.mem_cons] at hp
      rcases hp with rfl | hp
      · exact hb
      · have hlbp := lowbit_pos h0
        have hadd := lowbit_add h0
        have hle2 : lowbit (idx + lowbit idx) ≤ idx + lowbit idx := lowbit_le
        exact ih (by omega) (by omega) (by omega) p hp
    · simp [if_neg h] at hp

theorem mem_uChain_iff {len f idx p : Nat} (hidx : 0 < idx) (hf : len ≤ idx + f) :
    p ∈ uChain len f idx ↔ (idx ≤ p ∧ p - lowbit p < idx ∧ p < len) := by
  constructor
  · intro hp
    exact ⟨uChain_lb p hp,
      uChain_sub_lt hidx (by have := lowbit_pos hidx; omega) (le_refl idx) p hp,
      uChain_lt_len p hp⟩
  · intro ⟨h1, h2, h3⟩
    induction f generalizing idx with
    | zero => omega
    | succ f ih =>
      have hlen : idx < len := by omega
      rw [uChain, if_pos hlen]
      by_cases he : p = idx
      · simp [he]
      · have hlt : idx < p := by omega
        have hreach := lowbit_reach hidx hlt h2
        have hlbp := lowbit_pos hidx
        refine List.mem_cons_of_mem _ (ih (by omega) (by omega) (by omega) (by omega))

theorem fenUpdate_apply {len : Nat} (v : Int) :
    ∀ (f idx : Nat) (t : Nat → Int) (p : Nat), 0 < idx →
      fenUpdate len f t idx v p = if p ∈ uChain len f idx then t p + v else t p := by
  intro f
  induction f with
  | zero => intro idx t p h0; simp [fenUpdate, uChain]
  | succ f ih =>
    intro idx t p h0
    rw [fenUpdate, uChain]
    by_cases h : idx < len
    · rw [if_pos h, if_pos h]
      have hnext : 0 < idx + lowbit idx := by omega
      rw [ih _ _ p hnext]
      by_cases hp : p ∈ uChain len f (idx + lowbit idx)
      · have hge := uChain_lb p hp
        have : p ≠ idx := by have := lowbit_pos h0; omega
        simp [hp, this]
      · by_cases he : p = idx
        · subst he
          simp [hp]
        · simp [hp, he]
    · rw [if_neg h, if_neg h]
      simp

theorem qChain_mem {f q : Nat} : ∀ p ∈ qChain f q, 0 < p ∧ p ≤ q := by
  induction f generalizing q with
  | zero => intro p hp; simp [qChain] at hp
  | succ f ih =>
    intro p hp
    rw [qChain] at hp
    by_cases h : 0 < q
    · simp only [if_pos h, List.mem_cons] at hp
      rcases hp with rfl | hp
      · exact ⟨h, le_refl _⟩
      · have := ih p hp
        have : p ≤ q - lowbit q := this.2
        omega
    · simp [if_neg h] at hp

theorem qChain_zero : ∀ (f : Nat), qChain f 0 = [] := by
  intro f; cases f <;> simp [qChain]

theorem qChain_fuel : ∀ {q : Nat} (f f' : Nat), q ≤ f → q ≤ f' → qChain f q = qChain f' q := by
  intro q
  induction q using Nat.strong_induction_on with
  | _ q ih =>
    intro f f' hf hf'
    match q, f, f' with
    | 0, f, f' => rw [qChain_zero, qChain_zero]
    | q + 1, f + 1, f' + 1 =>
      rw [qChain, qChain]
      have hq : 0 < q + 1 := by omega
      rw [if_pos hq, if_pos hq]
      have hlb := lowbit_pos hq
      have hle := lowbit_le (n := q + 1)
      rw [ih (q + 1 - lowbit (q + 1)) (by omega) f f' (by omega) (by omega)]

theorem fenQuery_eq_sum : ∀ (f : Nat) (t : Nat → Int) (q : Nat),
    fenQuery f t q = ((qChain f q).map t).sum := by
  intro f
  induction f with
  | zero => intro t q; simp [fenQuery, qChain]
  | succ f ih =>
    intro t q
    rw [fenQuery, qChain]
    by_cases h : 0 < q
    · rw [if_pos h, if_pos h, List.map_cons, List.sum_cons, ih]
    · rw [if_neg h, if_neg h]; rfl

theorem fenQuery_fuel {t : Nat → Int} {q f f' : Nat} (hf : q ≤ f) (hf' : q ≤ f') :
    fenQuery f t q = fenQuery f' t q := by
  rw [fenQuery_eq_sum, fenQuery_eq_sum, qChain_fuel f f' hf hf']

theorem qChain_countP {idx : Nat} (hidx : 0 < idx) :
    ∀ {q f : Nat}, q ≤ f →
      (qChain f q).countP (fun p => decide (idx ≤ p ∧ p - lowbit p < idx)) =
        if idx ≤ q then 1 else 0 := by
  intro q
  induction q using Nat.strong_induction_on with
  | _ q ih =>
    intro f hf
    match q, f with
    | 0, f =>
      rw [qChain_zero, List.countP_nil, if_neg (by omega : ¬ idx ≤ 0)]
    | q + 1, f + 1 =>
      rw [qChain, if_pos (by omega : 0 < q + 1)]
      rw [List.countP_cons]
      have hlb := lowbit_pos (n := q + 1) (by omega)
      have hle := lowbit_le (n := q + 1)
      have hrec := ih (q + 1 - lowbit (q + 1)) (by omega) (f := f) (by omega)
      by_cases h1 : idx ≤ q + 1 - lowbit (q + 1)
      · rw [if_pos h1] at hrec
        have hd : (decide (idx ≤ q + 1 ∧ q + 1 - lowbit (q + 1) < idx)) = false := by
          simp only [decide_eq_false_iff_not]
          omega
        rw [hrec, hd, if_pos (by omega : idx ≤ q + 1)]
        simp
      · rw [if_neg h1] at hrec
        by_cases h2 : idx ≤ q + 1
        · have hd : (decide (idx ≤ q + 1 ∧ q + 1 - lowbit (q + 1) < idx)) = true := by
            simp only [decide_eq_true_eq]
            omega
          rw [hrec, hd, if_pos h2]
          simp
        · have hd : (decide (idx ≤ q + 1 ∧ q + 1 - lowbit (q + 1) < idx)) = false := by
            simp only [decide_eq_false_iff_not]
            omega
          rw [hrec, hd, if_neg h2]
          simp

theorem list_sum_add_ite (l : List Nat) (t : Nat → Int) (v : Int)
    (pr : Nat → Prop) [DecidablePred pr] :
    (l.map (fun p => t p + if pr p then v else 0)).sum =
      (l.map t).sum + v * (l.countP (fun p => decide (pr p)) : Int) := by
  induction l with
  | nil => simp
  | cons a l ih =>
    rw [List.map_cons, List.sum_cons, List.map_cons, List.sum_cons, ih, List.countP_cons]
    by_cases h : pr a
    · simp only [if_pos h, decide_eq_true h, if_true]
      push_cast
      ring
    · simp only [if_neg h, decide_eq_false h, Bool.false_eq_true, if_false]
      push_cast
      ring

theorem fenQuery_fenUpdate {len idx q fu fq : Nat} {t : Nat → Int} {v : Int}
    (hidx : 0 < idx) (hq : q < len) (hfu : len ≤ idx + fu) (hfq : q ≤ fq) :
    fenQuery fq (fenUpdate len fu t idx v) q =
      fenQuery fq t q + if idx ≤ q then v else 0 := by
  rw [fenQuery_eq_sum, fenQuery_eq_sum]
  have hfun : ∀ p ∈ qChain fq q,
      fenUpdate len fu t idx v p = t p + if (idx ≤ p ∧ p - lowbit p < idx) then v else 0 := by
    intro p hp
    rw [fenUpdate_apply v fu idx t p hidx]
    have hple : p < len := by have := (qChain_mem p hp).2; omega
    have hiff := @mem_uChain_iff len fu idx p hidx hfu
    by_cases h : idx ≤ p ∧ p - lowbit p < idx
    · rw [if_pos (hiff.mpr ⟨h.1, h.2, hple⟩), if_pos h]
    · rw [if_neg (fun hc => h ⟨(hiff.mp hc).1, (hiff.mp hc).2.1⟩), if_neg h, add_zero]
  rw [List.map_congr_left hfun, list_sum_add_ite, qChain_countP hidx hfq]
  by_cases h : idx ≤ q
  · rw [if_pos h, if_pos h]; push_cast; ring
  · rw [if_neg h, if_neg h]; push_cast; ring

theorem fenQuery_const_zero (f q : Nat) : fenQuery f (fun _ => (0 : Int)) q = 0 := by
  rw [fenQuery_eq_sum]
  induction qChain f q with
  | nil => rfl
  | cons a l ih => rw [List.map_cons, List.sum_cons, ih, add_zero]

theorem Spre_succ (c : Nat → Int) (q : Nat) : Spre c (q + 1) = Spre c q + c q := by
  unfold Spre
  rw [List.range_succ, List.map_append, List.sum_append]
  simp

theorem Spre_congr {c c' : Nat → Int} (q : Nat) (h : ∀ j, j < q → c j = c' j) :
    Spre c q = Spre c' q := by
  induction q with
  | zero => rfl
  | succ q ih =>
    rw [Spre_succ, Spre_succ, ih (fun j hj => h j (by omega)), h q (by omega)]

theorem Spre_delta (c : Nat → Int) (j0 : Nat) (q : Nat) :
    Spre (fun j => c j + if j = j0 then 1 else 0) q =
      Spre c q + if j0 < q then 1 else 0 := by
  induction q with
  | zero => simp [Spre]
  | succ q ih =>
    rw [Spre_succ, Spre_succ, ih]
    by_cases h1 : j0 < q
    · rw [if_pos h1, if_pos (by omega : j0 < q + 1), if_neg (by omega : ¬ q = j0)]
      ring
    · by_cases h2 : q = j0
      · rw [if_neg h1, if_pos h2, if_pos (by omega : j0 < q + 1)]
        ring
      · rw [if_neg h1, if_neg h2, if_neg (by omega : ¬ j0 < q + 1)]
        ring

theorem innerFold (Pb : Nat → Nat → Bool) (n i : Nat) :
    ∀ (L : List Nat) (c : Nat → Int) (sum : Int) (t : Nat → Int),
      (∀ j ∈ L, j < n) → L.Pairwise (· > ·) → FenInv n t c →
      FenInv n (L.foldl (crossStep Pb n i) (sum, t)).2
          (fun j => c j + if j ∈ L ∧ Pb j i = true then 1 else 0) ∧
      (L.foldl (crossStep Pb n i) (sum, t)).1 =
        sum + ((L.filter (fun j => Pb j i)).map (fun j => Spre c j)).sum := by
  intro L
  induction L with
  | nil =>
    intro c sum t _ _ hinv
    refine ⟨fun q hq => ?_, by simp⟩
    simp only [List.not_mem_nil, false_and, if_neg, not_false_iff, add_zero]
    exact hinv q hq
  | cons j0 L ih =>
    intro c sum t hL hpair hinv
    rw [List.foldl_cons]
    have hL' : ∀ j ∈ L, j < n := fun j hj => hL j (List.mem_cons_of_mem _ hj)
    have hpair' : L.Pairwise (· > ·) := (List.pairwise_cons.mp hpair).2
    have hnotin : j0 ∉ L := fun hmem =>
      absurd ((List.pairwise_cons.mp hpair).1 j0 hmem) (by omega)
    by_cases hp : Pb j0 i = true
    · have hstep : crossStep Pb n i (sum, t) j0 =
          (sum + fenQuery j0 (fenUpdate (n + 1) (n + 1) t (j0 + 1) 1) j0,
           fenUpdate (n + 1) (n + 1) t (j0 + 1) 1) := by
        unfold crossStep
        rw [if_pos hp]
      rw [hstep]
      have hj0 : j0 < n := hL j0 (List.mem_cons_self _ _)
      set t1 := fenUpdate (n + 1) (n + 1) t (j0 + 1) 1 with ht1
      have hinv1 : FenInv n t1 (fun j => c j + if j = j0 then 1 else 0) := by
        intro q hq
        rw [ht1, @fenQuery_fenUpdate (n + 1) (j0 + 1) q (n + 1) q t 1 (by omega) hq
          (by omega) (le_refl q), hinv q hq, Spre_delta]
        by_cases hle : j0 + 1 ≤ q
        · rw [if_pos hle, if_pos (by omega : j0 < q)]
        · rw [if_neg hle, if_neg (by omega : ¬ j0 < q)]
      have hq0 : fenQuery j0 t1 j0 = Spre c j0 := by
        rw [hinv1 j0 (by omega), Spre_delta, if_neg (by omega : ¬ j0 < j0), add_zero]
      obtain ⟨hinvR, hsumR⟩ := ih (fun j => c j + if j = j0 then 1 else 0)
        (sum + fenQuery j0 t1 j0) t1 hL' hpair' hinv1
      constructor
      · intro q hq
        rw [hinvR q hq]
        apply Spre_congr
        intro j hjq
        by_cases hje : j = j0
        · subst hje
          rw [if_pos rfl, if_neg (fun hc : j ∈ L ∧ Pb j i = true => hnotin hc.1),
            if_pos ⟨List.mem_cons_self _ _, hp⟩]
          ring
        · have hiff : (j ∈ L ∧ Pb j i = true) ↔ (j ∈ j0 :: L ∧ Pb j i = true) := by
            constructor
            · exact fun hc => ⟨List.mem_cons_of_mem _ hc.1, hc.2⟩
            · intro hc
              rcases List.mem_cons.mp hc.1 with h | h
              · exact absurd h hje
              · exact ⟨h, hc.2⟩
          rw [if_neg hje, if_congr hiff rfl rfl]
          ring
      · rw [hsumR, hq0, List.filter_cons, if_pos hp, List.map_cons, List.sum_cons]
        have hmapeq : (L.filter (fun j => Pb j i)).map
              (fun j => Spre (fun r => c r + if r = j0 then 1 else 0) j) =
            (L.filter (fun j => Pb j i)).map (fun j => Spre c j) := by
          apply List.map_congr_left
          intro j hj
          have hjL : j ∈ L := List.mem_of_mem_filter hj
          have hjlt : j0 > j := (List.pairwise_cons.mp hpair).1 j hjL
          rw [Spre_delta, if_neg (by omega : ¬ j0 < j), add_zero]
        rw [hmapeq]
        ring
    · have hstep : crossStep Pb n i (sum, t) j0 = (sum, t) := by
        unfold crossStep
        rw [if_neg hp]
      rw [hstep]
      obtain ⟨hinvR, hsumR⟩ := ih c sum t hL' hpair' hinv
      constructor
      · intro q hq
        rw [hinvR q hq]
        apply Spre_congr
        intro j hjq
        by_cases hje : j = j0
        · subst hje
          rw [if_neg (fun hc : j ∈ L ∧ Pb j i = true => hnotin hc.1),
            if_neg (fun hc : j ∈ j :: L ∧ Pb j i = true => hp hc.2)]
        · have hiff : (j ∈ L ∧ Pb j i = true) ↔ (j ∈ j0 :: L ∧ Pb j i = true) := by
            constructor
            · exact fun hc => ⟨List.mem_cons_of_mem _ hc.1, hc.2⟩
            · intro hc
              rcases List.mem_cons.mp hc.1 with h | h
              · exact absurd h hje
              · exact ⟨h, hc.2⟩
          rw [if_congr hiff rfl rfl]
      · rw [hsumR, List.filter_cons, if_neg hp]

theorem FenInv_congr {n : Nat} {t : Nat → Int} {c c' : Nat → Int}
    (h : FenInv n t c) (hcc : ∀ j, j < n → c j = c' j) : FenInv n t c' := by
  intro q hq
  rw [h q hq]
  exact Spre_congr q (fun j hj => hcc j (by omega))

theorem outerFold (Pb : Nat → Nat → Bool) (n : Nat) :
    ∀ (M R : List Nat) (t : Nat → Int), FenInv n t (cAcc Pb R) →
      (M.foldl (fun st i => ((List.range n).reverse).foldl (crossStep Pb n i) st)
        (GAcc Pb n R, t)).1 = GAcc Pb n (M.reverse ++ R) := by
  intro M
  induction M with
  | nil => intro R t _; simp
  | cons i M ih =>
    intro R t hinv
    rw [List.foldl_cons]
    have hL : ∀ j ∈ (List.range n).reverse, j < n := by
      intro j hj
      rw [List.mem_reverse, List.mem_range] at hj
      exact hj
    have hpair : ((List.range n).reverse).Pairwise (· > ·) := by
      rw [List.pairwise_reverse]
      exact List.pairwise_lt_range n
    obtain ⟨hinv1, hsum1⟩ := innerFold Pb n i ((List.range n).reverse) (cAcc Pb R)
      (GAcc Pb n R) t hL hpair hinv
    set res := ((List.range n).reverse).foldl (crossStep Pb n i) (GAcc Pb n R, t) with hres
    have hinv2 : FenInv n res.2 (cAcc Pb (i :: R)) := by
      apply FenInv_congr hinv1
      intro j hj
      have hmem : j ∈ (List.range n).reverse := by
        rw [List.mem_reverse, List.mem_range]; exact hj
      show cAcc Pb R j + _ = cAcc Pb (i :: R) j
      unfold cAcc
      rw [List.filter_cons]
      by_cases hp : Pb j i = true
      · rw [if_pos ⟨hmem, hp⟩, if_pos hp]
        simp only [List.length_cons]
        push_cast
        ring
      · rw [if_neg (fun hc => hp hc.2), if_neg hp]
        ring
    have hsum2 : res.1 = GAcc Pb n (i :: R) := by
      rw [hsum1]
      rfl
    have hih := ih (i :: R) res.2 hinv2
    rw [← hsum2] at hih
    have heta : (res.1, res.2) = res := rfl
    rw [heta] at hih
    rw [hih]
    simp

theorem cAcc_nil (Pb : Nat → Nat → Bool) : cAcc Pb [] = fun _ => 0 := by
  funext j
  simp [cAcc]

theorem fenFoldResult (Pb : Nat → Nat → Bool) (n m : Nat) :
    (((List.range m).reverse).foldl
      (fun st i => ((List.range n).reverse).foldl (crossStep Pb n i) st)
      ((0 : Int), fun _ => (0 : Int))).1 = GAcc Pb n (List.range m) := by
  have hinv : FenInv n (fun _ => (0 : Int)) (cAcc Pb []) := by
    intro q hq
    rw [fenQuery_const_zero, cAcc_nil]
    unfold Spre
    induction q with
    | zero => rfl
    | succ q ih => rw [List.range_succ]; simp_all
  have h0 : GAcc Pb n [] = 0 := rfl
  have := outerFold Pb n ((List.range m).reverse) [] (fun _ => 0) hinv
  rw [h0] at this
  rw [this]
  simp

theorem listMapRangeSum (n : Nat) (g : Nat → Int) :
    ((List.range n).map g).sum = ∑ x ∈ Finset.range n, g x := by
  induction n with
  | zero => simp
  | succ n ih =>
    rw [List.range_succ, List.map_append, List.sum_append, Finset.sum_range_succ, ih]
    simp

theorem listFilterMapSum (l : List Nat) (p : Nat → Bool) (f : Nat → Int) :
    ((l.filter p).map f).sum = (l.map (fun x => if p x then f x else 0)).sum := by
  induction l with
  | nil => rfl
  | cons a l ih =>
    rw [List.filter_cons, List.map_cons, List.sum_cons]
    by_cases h : p a = true
    · rw [if_pos h, List.map_cons, List.sum_cons, ih, if_pos h]
    · rw [if_neg h, ih, if_neg h, zero_add]

theorem sum_ite_lt (n j2 : Nat) (h : j2 ≤ n) (g : Nat → Int) :
    (∑ j1 ∈ Finset.range n, if j1 < j2 then g j1 else 0) =
      ∑ j1 ∈ Finset.range j2, g j1 := by
  rw [← Finset.sum_filter]
  congr 1
  ext x
  simp only [Finset.mem_filter, Finset.mem_range]
  omega

theorem filterLengthSum (R : List Nat) (hnd : R.Nodup) (p : Nat → Bool) :
    ((R.filter p).length : Int) = ∑ x ∈ R.toFinset, (if p x = true then (1 : Int) else 0) := by
  induction R with
  | nil => simp
  | cons a R ih =>
    rw [List.filter_cons, List.toFinset_cons]
    have ha : a ∉ R := (List.nodup_cons.mp hnd).1
    have ha' : a ∉ R.toFinset := by simpa using ha
    rw [Finset.sum_insert ha']
    have ihh := ih (List.nodup_cons.mp hnd).2
    by_cases h : p a = true
    · rw [if_pos h, if_pos h, List.length_cons]
      push_cast
      rw [ihh]
      ring
    · rw [if_neg h, if_neg h, ihh]
      ring

/-- `colsum` as nested `Finset` sums. -/
theorem colsum_eq (Pb : Nat → Nat → Bool) (n : Nat) (R : List Nat) (hnd : R.Nodup)
    (i : Nat) :
    colsum Pb n R i =
      ∑ j2 ∈ Finset.range n, ∑ j1 ∈ Finset.range n, ∑ i1 ∈ R.toFinset,
        if (j1 < j2 ∧ Pb j1 i1 = true ∧ Pb j2 i = true) then (1 : Int) else 0 := by
  unfold colsum
  rw [List.filter_reverse, List.map_reverse, List.sum_reverse, listFilterMapSum,
    listMapRangeSum]
  apply Finset.sum_congr rfl
  intro j2 hj2
  rw [Finset.mem_range] at hj2
  by_cases hp : Pb j2 i = true
  · rw [if_pos hp]
    unfold Spre
    rw [listMapRangeSum]
    have hin : ∀ j1 ∈ Finset.range j2, cAcc Pb R j1 =
        ∑ i1 ∈ R.toFinset, (if Pb j1 i1 = true then (1 : Int) else 0) := by
      intro j1 _
      exact filterLengthSum R hnd _
    rw [Finset.sum_congr rfl hin]
    rw [← sum_ite_lt n j2 (by omega)]
    apply Finset.sum_congr rfl
    intro j1 _
    by_cases hlt : j1 < j2
    · rw [if_pos hlt]
      apply Finset.sum_congr rfl
      intro i1 _
      by_cases hp1 : Pb j1 i1 = true
      · rw [if_pos hp1, if_pos ⟨hlt, hp1, hp⟩]
      · rw [if_neg hp1, if_neg (fun hc => hp1 hc.2.1)]
    · rw [if_neg hlt]
      symm
      apply Finset.sum_eq_zero
      intro i1 _
      rw [if_neg (fun hc => hlt hc.1)]
  · rw [if_neg hp]
    symm
    apply Finset.sum_eq_zero
    intro j1 _
    apply Finset.sum_eq_zero
    intro i1 _
    rw [if_neg (fun hc => hp hc.2.2)]

theorem GAcc_eq_naiveSum (Pb : Nat → Nat → Bool) (n : Nat) :
    ∀ (R : List Nat), R.Pairwise (· < ·) →
      GAcc Pb n R = naiveSum Pb n R.toFinset := by
  intro R
  induction R with
  | nil =>
    intro _
    show (0 : Int) = naiveSum Pb n ∅
    unfold naiveSum
    simp
  | cons i R ih =>
    intro hp
    have hlt : ∀ r ∈ R, i < r := (List.pairwise_cons.mp hp).1
    have hps : R.Pairwise (· < ·) := (List.pairwise_cons.mp hp).2
    have hnd : R.Nodup := hps.imp (fun h => Nat.ne_of_lt h)
    have hiR : i ∉ R := fun hm => absurd (hlt i hm) (by omega)
    have hiS : i ∉ R.toFinset := by simpa using hiR
    show GAcc Pb n R + colsum Pb n R i = naiveSum Pb n (i :: R).toFinset
    rw [List.toFinset_cons]
    unfold naiveSum
    simp only [Finset.sum_insert hiS, Finset.sum_add_distrib]
    have hT1 : (∑ j1 ∈ Finset.range n, ∑ j2 ∈ Finset.range n,
        crossTerm Pb j1 i j2 i) = 0 := by
      apply Finset.sum_eq_zero
      intro j1 _
      apply Finset.sum_eq_zero
      intro j2 _
      unfold crossTerm
      rw [if_neg (fun hc => absurd hc.2.1 (by omega))]
    have hT2 : (∑ j1 ∈ Finset.range n, ∑ j2 ∈ Finset.range n,
        ∑ i2 ∈ R.toFinset, crossTerm Pb j1 i j2 i2) = 0 := by
      apply Finset.sum_eq_zero
      intro j1 _
      apply Finset.sum_eq_zero
      intro j2 _
      apply Finset.sum_eq_zero
      intro i2 hi2
      rw [List.mem_toFinset] at hi2
      have := hlt i2 hi2
      unfold crossTerm
      rw [if_neg (fun hc => absurd hc.2.1 (by omega))]
    have hT3 : (∑ j1 ∈ Finset.range n, ∑ i1 ∈ R.toFinset, ∑ j2 ∈ Finset.range n,
        crossTerm Pb j1 i1 j2 i) = colsum Pb n R i := by
      have step1 : (∑ j1 ∈ Finset.range n, ∑ i1 ∈ R.toFinset, ∑ j2 ∈ Finset.range n,
          crossTerm Pb j1 i1 j2 i) = ∑ j1 ∈ Finset.range n, ∑ j2 ∈ Finset.range n,
          ∑ i1 ∈ R.toFinset, crossTerm Pb j1 i1 j2 i := by
        apply Finset.sum_congr rfl
        intro j1 _
        exact Finset.sum_comm
      rw [step1, Finset.sum_comm, colsum_eq Pb n R hnd i]
      apply Finset.sum_congr rfl
      intro j2 _
      apply Finset.sum_congr rfl
      intro j1 _
      apply Finset.sum_congr rfl
      intro i1 hi1
      rw [List.mem_toFinset] at hi1
      have hii1 : i < i1 := hlt i1 hi1
      unfold crossTerm
      by_cases hc : j1 < j2 ∧ Pb j1 i1 = true ∧ Pb j2 i = true
      · rw [if_pos ⟨hc.1, hii1, hc.2.1, hc.2.2⟩, if_pos hc]
      · rw [if_neg (fun hq => hc ⟨hq.1, hq.2.2.1, hq.2.2.2⟩), if_neg hc]
    rw [hT1, hT2, hT3, ih hps]
    unfold naiveSum
    ring

theorem naiveCrossings_eq_naiveSum (segments : List (Nat × Nat))
    (ltop lbottom : List Nat) :
    (naiveCrossings segments ltop lbottom : Int) =
      naiveSum (fun j r => segments.contains (ltop.getD j 0, lbottom.getD r 0))
        ltop.length (Finset.range lbottom.length) := by
  unfold naiveCrossings naiveSum
  rw [Finset.card_filter]
  simp only [Finset.sum_product]
  push_cast
  apply Finset.sum_congr rfl
  intro j1 _
  apply Finset.sum_congr rfl
  intro i1 _
  apply Finset.sum_congr rfl
  intro j2 _
  apply Finset.sum_congr rfl
  intro i2 _
  unfold crossTerm
  by_cases hc : j1 < j2 ∧ i2 < i1 ∧
      segments.contains (ltop.getD j1 0, lbottom.getD i1 0) = true ∧
      segments.contains (ltop.getD j2 0, lbottom.getD i2 0) = true
  · rw [if_pos hc]
  · rw [if_neg hc]

theorem numCrossingsBetweenLayers_eq_naive (segments : List (Nat × Nat))
    (ltop lbottom : List Nat) :
    numCrossingsBetweenLayers segments ltop lbottom =
      (naiveCrossings segments ltop lbottom : Int) := by
  unfold numCrossingsBetweenLayers
  rw [fenFoldResult, naiveCrossings_eq_naiveSum,
    GAcc_eq_naiveSum _ _ (List.range lbottom.length) (List.pairwise_lt_range _)]
  congr 1
  ext x
  rw [List.mem_toFinset, List.mem_range, Finset.mem_range]

/-- C8: for every segment set and every pair of ordered layers, the count
computed by `numCrossingsBetweenLayers` with the Fenwick tree equals the
naive crossing count: the number of pairs of segments `(a, c)`, `(b, d)`
from the top to the bottom layer with `a` left of `b` in the top layer and
`d` left of `c` in the bottom layer. -/
theorem fenwick_count_eq_naive_count (segments : List (Nat × Nat))
    (ltop lbottom : List Nat) :
    numCrossingsBetweenLayers segments ltop lbottom =
      (naiveCrossings segments ltop lbottom : Int) :=
  numCrossingsBetweenLayers_eq_naive segments ltop lbottom

/-! ## Claim theorems -/

/-- C3 counterexample: `Validate` succeeds on a segment that descends two
layers, so "Validate succeeds exactly when every segment (u, v) satisfies
layer(v) = layer(u) + 1" is false: the right-hand side fails while
`Validate` reports no error. -/
theorem validate_accepts_two_layer_segment :
    lgSpan2.Validate = none ∧ ¬ unitSegments lgSpan2 := by
  constructor
  · rfl
  · decide

/-- C3 (amended): `Validate` errors exactly when some segment fails to
strictly descend: it succeeds iff every segment `(u, v)` has
`layer(u) < layer(v)`; unit length is not checked. -/
theorem validate_none_iff_strict_descent (g : LayeredGraph) :
    g.Validate = none ↔ ∀ e ∈ g.Segments, (g.pos e.1).Layer < (g.pos e.2).Layer := by
  unfold LayeredGraph.Validate
  rw [List.find?_eq_none]
  constructor
  · intro h e he
    have := h e he
    simp only [decide_eq_true_eq] at this
    omega
  · intro h e he
    have := h e he
    simp only [decide_eq_true_eq]
    omega

/-- C5: for every segment set, the root list computed by
`BFSOrderingInitializer.Init` is empty — the BFS visits nothing, every node
keeps the default order key 0, and no layer is reordered by a BFS
visitation order.  In particular the initializer does not start from the
nodes with no incoming segment, as the claim requires. -/
theorem bfsInitRoots_always_empty (segments : List (Nat × Nat)) :
    bfsInitRoots segments = [] := by
  unfold bfsInitRoots
  rw [List.map_eq_nil_iff, List.filter_eq_nil_iff]
  intro e he
  simp only [Bool.not_eq_true', Bool.not_eq_false]
  exact List.elem_eq_true_of_mem (List.mem_map_of_mem (·.2) he)

/-- C10: on the two-node chain, `LowerNeighbors 1` evaluates to `[1]` — the
queried node itself — whose single element `u = 1` neither forms a segment
`(1, u)` nor lies on layer `layer(1) + 1`.  The code appends `e[0]` where
its own doc comment ("nodes in lower layer that are connected to given
node") requires `e[1]`. -/
theorem lowerNeighbors_returns_self :
    lgTwoChain.LowerNeighbors 1 = [1] ∧
    lgTwoChain.Segments.contains (1, 1) = false ∧
    (lgTwoChain.pos 1).Layer ≠ (lgTwoChain.pos 1).Layer + 1 := by
  refine ⟨rfl, rfl, ?_⟩
  decide

/-- C1: with `Delta = 1` (and either `TopDownOnly` setting) the assigner
places the same-layer adjacent pair `(3, 4)` at the same coordinate:
`x(3) = x(4) = 0`, so `x(4) - x(3) = 0 < Delta`, although the per-layer
orders are permutations.  The top-left run yields `x = 0,1,0,1` and the
top-right run `x = -1,0,-2,-1` (width 2, so top-left with width 1 is the
reference, and the top-right run is shifted by `+1`); the candidate sums are
`-1` for node 3 and `+1` for node 4, and Go's `/ 2`, truncating toward
zero, collapses both to 0. -/
theorem bk_fork_loses_delta_separation :
    (BrandesKopfLayersNodesHorizontalAssigner.NodesHorizontalCoordinates
        ⟨1, true⟩ lgFork) =
      some [(1, 0), (2, 1), (3, 0), (4, 0)] ∧
    (BrandesKopfLayersNodesHorizontalAssigner.NodesHorizontalCoordinates
        ⟨1, false⟩ lgFork) =
      some [(1, 0), (2, 1), (3, 0), (4, 0)] ∧
    (lgFork.pos 4).Layer = (lgFork.pos 3).Layer ∧
    (lgFork.pos 4).Order = (lgFork.pos 3).Order + 1 := by
  refine ⟨by decide, by decide, rfl, rfl⟩

/-- C6: the preprocessing sweep marks exactly the segment `(3, 5)` on this
graph — an *inner* segment (both endpoints dummy) — because it compares the
position `k` of `u` in the neighbour list (here 0) against the interval
`[k0, k1]` of layer-0 orders (here `k0 = 1` after the first checkpoint)
instead of comparing the order of `u`.  The claim's consequence "a segment
between two dummy nodes is never marked" therefore fails. -/
theorem preprocessing_marks_inner_segment :
    preprocessing lgInnerPair (computeOrderedNeighbors lgInnerPair) = [(3, 5)] ∧
    lgInnerPair.IsInnerSegment (3, 5) = true ∧
    lgInnerPair.Segments.contains (3, 5) = true := by
  refine ⟨by decide, rfl, rfl⟩

/-- C4: `maxNodeID` scans only edge endpoints, so construction allocates
dummy id `max(edge endpoint) + 1 = 4`, which collides with the edge-free
node 4 of the input graph: the dummy set is not disjoint from the keys of
`g.Nodes`, and allocation does not start at `max(original node id) + 1 = 5`. -/
theorem dummy_id_collides_with_isolated_node :
    ((NewLayeredGraph 32 gIsolated4).map LayeredGraph.Dummy) = some [4] ∧
    gIsolated4.nodes.contains 4 = true ∧
    maxNodeID gIsolated4 = 3 := by
  refine ⟨?_, rfl, rfl⟩
  decide

/-! ## Claim C2 — unit-length segments after construction -/

theorem lookup_cons_ite {b : Type} (a : Nat × b) (l : List (Nat × b)) (n : Nat) :
    List.lookup n (a :: l) = if n = a.1 then some a.2 else List.lookup n l := by
  obtain ⟨k, v⟩ := a
  rw [List.lookup_cons]
  by_cases h : n = k
  · subst h
    simp
  · have hb : (n == k) = false := by simp [h]
    rw [hb]
    simp [h]

theorem lookup_storePos_self (m : List (Nat × LayerPosition)) (n : Nat) (p : LayerPosition) :
    (storePos m n p).lookup n = some p := by
  unfold storePos
  by_cases h : m.any (fun q => q.1 == n)
  · rw [if_pos h]
    rw [List.any_eq_true] at h
    obtain ⟨q, hq, hqn⟩ := h
    simp only [beq_iff_eq] at hqn
    induction m with
    | nil => simp at hq
    | cons a m ih =>
      rw [List.map_cons]
      by_cases ha : a.1 = n
      · have hh : (if (a.1 == n) = true then ((n, p) : Nat × LayerPosition) else a) = (n, p) := by
          rw [if_pos (by simp [ha])]
        rw [hh, lookup_cons_ite, if_pos rfl]
      · have hh : (if (a.1 == n) = true then ((n, p) : Nat × LayerPosition) else a) = a := by
          rw [if_neg (by simp [ha])]
        rw [hh, lookup_cons_ite, if_neg (by omega)]
        rcases List.mem_cons.mp hq with rfl | hq2
        · exact absurd hqn ha
        · exact ih hq2
  · rw [if_neg h]
    rw [List.any_eq_true] at h
    push_neg at h
    simp only [ne_eq, beq_iff_eq] at h
    induction m with
    | nil => rw [List.nil_append, lookup_cons_ite, if_pos rfl]
    | cons a m ih =>
      rw [List.cons_append, lookup_cons_ite, if_neg ?hane]
      case hane =>
        have h2 := h a (List.mem_cons_self _ _)
        omega
      exact ih (fun q hq => h q (List.mem_cons_of_mem _ hq))

theorem lookup_storePos_ne (m : List (Nat × LayerPosition)) (n k : Nat) (p : LayerPosition)
    (hk : k ≠ n) : (storePos m n p).lookup k = m.lookup k := by
  unfold storePos
  by_cases h : m.any (fun q => q.1 == n)
  · rw [if_pos h]
    clear h
    induction m with
    | nil => simp
    | cons a m ih =>
      rw [List.map_cons]
      by_cases ha : a.1 = n
      · have hh : (if (a.1 == n) = true then ((n, p) : Nat × LayerPosition) else a) = (n, p) := by
          rw [if_pos (by simp [ha])]
        rw [hh, lookup_cons_ite, lookup_cons_ite,
          if_neg (show ¬ k = (n, p).1 from by simpa using hk),
          if_neg (show ¬ k = a.1 by omega)]
        exact ih
      · have hh : (if (a.1 == n) = true then ((n, p) : Nat × LayerPosition) else a) = a := by
          rw [if_neg (by simp [ha])]
        rw [hh, lookup_cons_ite, lookup_cons_ite]
        by_cases hak : k = a.1
        · rw [if_pos hak, if_pos hak]
        · rw [if_neg hak, if_neg hak]
          exact ih
  · rw [if_neg h]
    clear h
    induction m with
    | nil =>
      rw [List.nil_append, lookup_cons_ite, if_neg (by simpa using hk)]
    | cons a m ih =>
      rw [List.cons_append, lookup_cons_ite, lookup_cons_ite]
      by_cases hak : k = a.1
      · rw [if_pos hak, if_pos hak]
      · rw [if_neg hak, if_neg hak]
        exact ih

theorem inDom_storePos (m : List (Nat × LayerPosition)) (n k : Nat) (p : LayerPosition) :
    inDom (storePos m n p) k ↔ inDom m k ∨ k = n := by
  by_cases hk : k = n
  · subst hk
    unfold inDom
    rw [lookup_storePos_self]
    simp
  · unfold inDom
    rw [lookup_storePos_ne m n k p hk]
    simp [hk]

theorem posIn_storePos_self (m : List (Nat × LayerPosition)) (n : Nat) (p : LayerPosition) :
    posIn (storePos m n p) n = p := by
  unfold posIn
  rw [lookup_storePos_self]
  rfl

theorem posIn_storePos_ne (m : List (Nat × LayerPosition)) (n k : Nat) (p : LayerPosition)
    (hk : k ≠ n) : posIn (storePos m n p) k = posIn m k := by
  unfold posIn
  rw [lookup_storePos_ne m n k p hk]

theorem relaxChild_lookup_ne (p : Nat) (m : List (Nat × LayerPosition)) (c x : Nat)
    (hx : x ≠ c) : (relaxChild p m c).lookup x = m.lookup x := by
  unfold relaxChild
  by_cases h : (posIn m p).Layer + 1 > (posIn m c).Layer
  · rw [if_pos h, lookup_storePos_ne _ _ _ _ hx]
  · rw [if_neg h]

theorem relaxChild_layer_mono (p : Nat) (m : List (Nat × LayerPosition)) (c x : Nat) :
    (posIn m x).Layer ≤ (posIn (relaxChild p m c) x).Layer := by
  unfold relaxChild
  by_cases h : (posIn m p).Layer + 1 > (posIn m c).Layer
  · rw [if_pos h]
    by_cases hx : x = c
    · subst hx
      rw [posIn_storePos_self]
      show (posIn m x).Layer ≤ (posIn m p).Layer + 1
      omega
    · rw [posIn_storePos_ne _ _ _ _ hx]
  · rw [if_neg h]

theorem relaxChild_dom_mono (p : Nat) (m : List (Nat × LayerPosition)) (c x : Nat)
    (hd : inDom m x) : inDom (relaxChild p m c) x := by
  unfold relaxChild
  by_cases h : (posIn m p).Layer + 1 > (posIn m c).Layer
  · rw [if_pos h]
    rw [inDom_storePos]
    exact Or.inl hd
  · rw [if_neg h]
    exact hd

theorem relaxChild_post (p : Nat) (m : List (Nat × LayerPosition)) (c : Nat) :
    inDom (relaxChild p m c) c ∧
      (posIn m p).Layer + 1 ≤ (posIn (relaxChild p m c) c).Layer := by
  unfold relaxChild
  by_cases h : (posIn m p).Layer + 1 > (posIn m c).Layer
  · rw [if_pos h]
    refine ⟨(inDom_storePos _ _ _ _).mpr (Or.inr rfl), ?_⟩
    rw [posIn_storePos_self]
  · rw [if_neg h]
    constructor
    · unfold inDom
      unfold posIn at h
      cases hl : m.lookup c with
      | none => rw [hl] at h; simp at h
      | some v => simp
    · omega

theorem relaxFold_lookup_ne (p : Nat) (children : List Nat) :
    ∀ (m : List (Nat × LayerPosition)) (x : Nat), x ∉ children →
      ((children.foldl (relaxChild p) m).lookup x) = m.lookup x := by
  induction children with
  | nil => intro m x _; rfl
  | cons c rest ih =>
    intro m x hx
    rw [List.foldl_cons]
    rw [ih _ x (fun hm => hx (List.mem_cons_of_mem _ hm))]
    exact relaxChild_lookup_ne p m c x (fun he => hx (he ▸ List.mem_cons_self _ _))

theorem relaxFold_layer_mono (p : Nat) (children : List Nat) :
    ∀ (m : List (Nat × LayerPosition)) (x : Nat),
      (posIn m x).Layer ≤ (posIn (children.foldl (relaxChild p) m) x).Layer := by
  induction children with
  | nil => intro m x; exact le_refl _
  | cons c rest ih =>
    intro m x
    rw [List.foldl_cons]
    exact le_trans (relaxChild_layer_mono p m c x) (ih _ x)

theorem relaxFold_dom_mono (p : Nat) (children : List Nat) :
    ∀ (m : List (Nat × LayerPosition)) (x : Nat), inDom m x →
      inDom (children.foldl (relaxChild p) m) x := by
  induction children with
  | nil => intro m x h; exact h
  | cons c rest ih =>
    intro m x h
    rw [List.foldl_cons]
    exact ih _ x (relaxChild_dom_mono p m c x h)

theorem relaxFold_post (p : Nat) (children : List Nat) :
    p ∉ children → ∀ (m : List (Nat × LayerPosition)), ∀ c ∈ children,
      inDom (children.foldl (relaxChild p) m) c ∧
        (posIn (children.foldl (relaxChild p) m) p).Layer + 1 ≤
          (posIn (children.foldl (relaxChild p) m) c).Layer := by
  induction children with
  | nil => intro _ m c hc; simp at hc
  | cons c0 rest ih =>
    intro hp m c hc
    rw [List.foldl_cons]
    have hpc0 : p ≠ c0 := fun he => hp (he ▸ List.mem_cons_self _ _)
    have hprest : p ∉ rest := fun hm => hp (List.mem_cons_of_mem _ hm)
    have hpfinal : posIn (rest.foldl (relaxChild p) (relaxChild p m c0)) p =
        posIn m p := by
      unfold posIn
      rw [relaxFold_lookup_ne p rest _ p hprest, relaxChild_lookup_ne p m c0 p hpc0]
    rcases List.mem_cons.mp hc with rfl | hcrest
    · obtain ⟨hdom, hlay⟩ := relaxChild_post p m c
      refine ⟨relaxFold_dom_mono p rest _ c hdom, ?_⟩
      rw [hpfinal]
      exact le_trans hlay (relaxFold_layer_mono p rest _ c)
    · exact ih hprest (relaxChild p m c0) c hcrest

theorem mem_neighborsOf (g : Graph) (p c : Nat) :
    c ∈ g.neighborsOf p ↔ (p, c) ∈ g.edges := by
  unfold Graph.neighborsOf
  simp only [List.mem_map, List.mem_filter, beq_iff_eq]
  constructor
  · rintro ⟨e, ⟨he, hp⟩, rfl⟩
    have hpe : (p, e.2) = e := by rw [← hp]
    rwa [hpe]
  · intro h
    exact ⟨(p, c), ⟨h, rfl⟩, rfl⟩

theorem bfsLoop_dom_mono (nb : Nat → List Nat) :
    ∀ (fuel : Nat) (que : List Nat) (acc res : List (Nat × LayerPosition)),
      bfsLoop nb fuel que acc = some res → ∀ x, inDom acc x → inDom res x := by
  intro fuel
  induction fuel with
  | zero =>
    intro que acc res hres x hx
    rw [bfsLoop] at hres
    by_cases h : que.isEmpty
    · rw [if_pos h] at hres
      cases hres
      exact hx
    · rw [if_neg h] at hres
      cases hres
  | succ fuel ih =>
    intro que acc res hres x hx
    cases que with
    | nil =>
      simp only [bfsLoop] at hres
      cases hres
      exact hx
    | cons p rest =>
      simp only [bfsLoop] at hres
      exact ih _ _ _ hres x (relaxFold_dom_mono p (nb p) acc x hx)

theorem bfsLoop_inv (g : Graph) (hns : ∀ n : Nat, (n, n) ∉ g.edges) :
    ∀ (fuel : Nat) (que rem : List Nat) (acc res : List (Nat × LayerPosition)),
      bfsLoop g.neighborsOf fuel que acc = some res →
      EInv g acc (que ++ rem) → EInv g res rem := by
  intro fuel
  induction fuel with
  | zero =>
    intro que rem acc res hres hinv
    cases que with
    | nil =>
      simp only [bfsLoop, List.isEmpty_nil, if_true] at hres
      cases hres
      exact hinv
    | cons p rest =>
      simp [bfsLoop] at hres
  | succ fuel ih =>
    intro que rem acc res hres hinv
    cases que with
    | nil =>
      simp only [bfsLoop] at hres
      cases hres
      exact hinv
    | cons p rest =>
      simp only [bfsLoop] at hres
      refine ih (rest ++ g.neighborsOf p) rem _ res hres ?_
      intro e he hdom
      have hpnc : p ∉ g.neighborsOf p := fun hc => hns p ((mem_neighborsOf g p p).mp hc)
      by_cases he1 : e.1 = p
      · have hpe : (p, e.2) = e := by rw [← he1]
        have hchild : e.2 ∈ g.neighborsOf p := by
          rw [mem_neighborsOf, hpe]
          exact he
        obtain ⟨hdom2, hlay⟩ := relaxFold_post p (g.neighborsOf p) hpnc acc e.2 hchild
        left
        refine ⟨hdom2, ?_⟩
        rw [he1]
        exact hlay
      · by_cases he1c : e.1 ∈ g.neighborsOf p
        · right
          simp only [List.append_assoc, List.mem_append]
          exact Or.inr (Or.inl he1c)
        · have hlk := relaxFold_lookup_ne p (g.neighborsOf p) acc e.1 he1c
          have hdom0 : inDom acc e.1 := by
            unfold inDom at hdom ⊢
            rwa [hlk] at hdom
          rcases hinv e he hdom0 with ⟨hdom2, hlay⟩ | hmem
          · left
            refine ⟨relaxFold_dom_mono p _ acc e.2 hdom2, ?_⟩
            have h1 : posIn ((g.neighborsOf p).foldl (relaxChild p) acc) e.1 = posIn acc e.1 := by
              unfold posIn
              rw [hlk]
            rw [h1]
            exact le_trans hlay (relaxFold_layer_mono p _ acc e.2)
          · right
            simp only [List.cons_append, List.mem_cons] at hmem
            rcases hmem with h | h
            · exact absurd h he1
            · simp only [List.append_assoc, List.mem_append] at h ⊢
              rcases h with h | h
              · exact Or.inl h
              · exact Or.inr (Or.inr h)

theorem go_inv (fuel : Nat) (g : Graph) (hns : ∀ n : Nat, (n, n) ∉ g.edges) :
    ∀ (roots : List Nat) (acc res : List (Nat × LayerPosition)),
      assignLevels.go fuel g roots acc = some res →
      (∀ r ∈ roots, ∀ e ∈ g.edges, e.2 ≠ r) →
      EInv g acc roots → EInv g res [] := by
  intro roots
  induction roots with
  | nil =>
    intro acc res hres _ hinv
    rw [assignLevels.go] at hres
    injection hres with h
    subst h
    exact hinv
  | cons r rest ih =>
    intro acc res hres hroots hinv
    rw [assignLevels.go] at hres
    cases hbfs : bfsLoop g.neighborsOf fuel [r] (storePos acc r ⟨0, 0⟩) with
    | none =>
      rw [hbfs] at hres
      exact Option.noConfusion hres
    | some acc2 =>
      rw [hbfs] at hres
      have hinv1 : EInv g (storePos acc r ⟨0, 0⟩) (r :: rest) := by
        intro e he hdom1
        by_cases he1 : e.1 = r
        · right
          rw [he1]
          exact List.mem_cons_self _ _
        · have hlk := lookup_storePos_ne acc r e.1 ⟨0, 0⟩ he1
          have hdom0 : inDom acc e.1 := by
            unfold inDom at hdom1 ⊢
            rwa [hlk] at hdom1
          have he2r : e.2 ≠ r := hroots r (List.mem_cons_self _ _) e he
          have hlk2 := lookup_storePos_ne acc r e.2 ⟨0, 0⟩ he2r
          rcases hinv e he hdom0 with ⟨hdom2, hlay⟩ | hmem
          · left
            constructor
            · unfold inDom at hdom2 ⊢
              rwa [hlk2]
            · unfold posIn at hlay ⊢
              rw [hlk, hlk2]
              exact hlay
          · right
            exact hmem
      have hinv2 := bfsLoop_inv g hns fuel [r] rest _ acc2 hbfs hinv1
      exact ih acc2 res hres (fun r' hr' => hroots r' (List.mem_cons_of_mem _ hr')) hinv2

theorem go_dom (fuel : Nat) (g : Graph) :
    ∀ (roots : List Nat) (acc res : List (Nat × LayerPosition)),
      assignLevels.go fuel g roots acc = some res →
      (∀ x, inDom acc x → inDom res x) ∧ (∀ r ∈ roots, inDom res r) := by
  intro roots
  induction roots with
  | nil =>
    intro acc res hres
    rw [assignLevels.go] at hres
    injection hres with h
    subst h
    exact ⟨fun x hx => hx, fun r hr => by simp at hr⟩
  | cons r rest ih =>
    intro acc res hres
    rw [assignLevels.go] at hres
    cases hbfs : bfsLoop g.neighborsOf fuel [r] (storePos acc r ⟨0, 0⟩) with
    | none =>
      rw [hbfs] at hres
      exact Option.noConfusion hres
    | some acc2 =>
      rw [hbfs] at hres
      obtain ⟨hmono, hroots⟩ := ih acc2 res hres
      have hmono1 : ∀ x, inDom (storePos acc r ⟨0, 0⟩) x → inDom acc2 x :=
        fun x hx => bfsLoop_dom_mono g.neighborsOf fuel [r] _ acc2 hbfs x hx
      constructor
      · intro x hx
        exact hmono x (hmono1 x ((inDom_storePos acc r x ⟨0, 0⟩).mpr (Or.inl hx)))
      · intro r' hr'
        rcases List.mem_cons.mp hr' with rfl | h
        · exact hmono r' (hmono1 r' ((inDom_storePos acc r' r' ⟨0, 0⟩).mpr (Or.inr rfl)))
        · exact hroots r' h

theorem roots_no_incoming (g : Graph) (r : Nat) (hr : r ∈ g.RootsOf) :
    ∀ e ∈ g.edges, e.2 ≠ r := by
  unfold Graph.RootsOf at hr
  rw [List.mem_filter] at hr
  have h2 := hr.2
  simp only [Bool.not_eq_true', List.any_eq_false, beq_iff_eq] at h2
  exact h2

theorem mem_roots_of_no_incoming (g : Graph) (r : Nat) (hn : r ∈ g.nodes)
    (h : ∀ e ∈ g.edges, e.2 ≠ r) : r ∈ g.RootsOf := by
  unfold Graph.RootsOf
  rw [List.mem_filter]
  refine ⟨hn, ?_⟩
  simp only [Bool.not_eq_true', List.any_eq_false, beq_iff_eq]
  exact h

theorem assignLevels_spec (fuel : Nat) (g : Graph) (res : List (Nat × LayerPosition))
    (hres : assignLevels fuel g = some res)
    (hclosed : ∀ e ∈ g.edges, e.1 ∈ g.nodes ∧ e.2 ∈ g.nodes)
    (hacyc : WellFounded (fun u v : Nat => (u, v) ∈ g.edges)) :
    ∀ e ∈ g.edges, (posIn res e.1).Layer + 1 ≤ (posIn res e.2).Layer := by
  have hns : ∀ n : Nat, (n, n) ∉ g.edges := by
    intro n
    exact hacyc.induction (C := fun x => (x, x) ∉ g.edges) n (fun x ih hxx => ih x hxx hxx)
  unfold assignLevels at hres
  have hroots : ∀ r ∈ g.RootsOf, ∀ e ∈ g.edges, e.2 ≠ r :=
    fun r hr => roots_no_incoming g r hr
  have hinv0 : EInv g [] g.RootsOf := by
    intro e he hdom
    unfold inDom at hdom
    simp [List.lookup] at hdom
  have hfinal := go_inv fuel g hns g.RootsOf [] res hres hroots hinv0
  have hdomg := go_dom fuel g g.RootsOf [] res hres
  have hreach : ∀ n, n ∈ g.nodes → inDom res n := by
    intro n
    refine hacyc.induction (C := fun x => x ∈ g.nodes → inDom res x) n ?_
    intro x ih hx
    by_cases hin : ∃ e ∈ g.edges, e.2 = x
    · obtain ⟨e, he, he2⟩ := hin
      have hu : e.1 ∈ g.nodes := (hclosed e he).1
      have hpe : (e.1, x) = e := by rw [← he2]
      have hrel : (e.1, x) ∈ g.edges := by
        rw [hpe]
        exact he
      have hdomu : inDom res e.1 := ih e.1 hrel hu
      rcases hfinal e he hdomu with ⟨hdom2, _⟩ | hmem
      · rwa [he2] at hdom2
      · simp at hmem
    · push_neg at hin
      exact hdomg.2 x (mem_roots_of_no_incoming g x hx hin)
  intro e he
  have hdom1 : inDom res e.1 := hreach e.1 (hclosed e he).1
  rcases hfinal e he hdom1 with ⟨_, hlay⟩ | hmem
  · exact hlay
  · simp at hmem

theorem range'_getD (a K : Nat) :
    ∀ j, j < K → (List.range' a K).getD j 0 = a + j := by
  induction K generalizing a with
  | zero => intro j hj; omega
  | succ K ih =>
    intro j hj
    rw [show List.range' a (K + 1) = a :: List.range' (a + 1) K from rfl]
    cases j with
    | zero => rfl
    | succ j =>
      rw [List.getD_cons_succ, ih (a + 1) j (by omega)]
      omega

theorem length_range'_eq (a K : Nat) : (List.range' a K).length = K := by
  induction K generalizing a with
  | zero => rfl
  | succ K ih =>
    rw [show List.range' a (K + 1) = a :: List.range' (a + 1) K from rfl,
      List.length_cons, ih (a + 1)]

theorem mem_range'_bounds (a K x : Nat) : x ∈ List.range' a K → a ≤ x ∧ x < a + K := by
  induction K generalizing a with
  | zero => intro h; simp [List.range'] at h
  | succ K ih =>
    intro h
    rw [show List.range' a (K + 1) = a :: List.range' (a + 1) K from rfl] at h
    rcases List.mem_cons.mp h with rfl | h
    · omega
    · have := ih (a + 1) h
      omega

theorem getD_append_lt (l l' : List Nat) :
    ∀ n, n < l.length → (l ++ l').getD n 0 = l.getD n 0 := by
  induction l with
  | nil => intro n hn; simp at hn
  | cons a l ih =>
    intro n hn
    cases n with
    | zero => rfl
    | succ n =>
      rw [List.cons_append, List.getD_cons_succ, List.getD_cons_succ]
      exact ih n (by simpa using hn)

theorem getD_append_len (l l' : List Nat) :
    ∀ n, n = l.length → (l ++ l').getD n 0 = l'.getD 0 0 := by
  induction l with
  | nil => intro n hn; subst hn; rfl
  | cons a l ih =>
    intro n hn
    subst hn
    rw [List.cons_append, List.length_cons, List.getD_cons_succ]
    exact ih l.length rfl

theorem getD_mem_of_lt (l : List Nat) : ∀ k, k < l.length → l.getD k 0 ∈ l := by
  induction l with
  | nil => intro k hk; simp at hk
  | cons a l ih =>
    intro k hk
    cases k with
    | zero => exact List.mem_cons_self _ _
    | succ k =>
      rw [List.getD_cons_succ]
      exact List.mem_cons_of_mem _ (ih k (by simpa using hk))

theorem fakeFold_lookup (K : Nat) :
    ∀ (a b : Nat) (m : List (Nat × LayerPosition)),
      (∀ x, x < b →
        (((List.range' a K).zip (List.range' b K)).foldl
            (fun acc p => storePos acc p.2 ⟨p.1, 0⟩) m).lookup x = m.lookup x) ∧
      (∀ i, i < K →
        (((List.range' a K).zip (List.range' b K)).foldl
            (fun acc p => storePos acc p.2 ⟨p.1, 0⟩) m).lookup (b + i) =
          some ⟨a + i, 0⟩) := by
  induction K with
  | zero =>
    intro a b m
    exact ⟨fun x _ => rfl, fun i hi => by omega⟩
  | succ K ih =>
    intro a b m
    rw [show (List.range' a (K + 1)).zip (List.range' b (K + 1)) =
      (a, b) :: ((List.range' (a + 1) K).zip (List.range' (b + 1) K)) from rfl]
    rw [List.foldl_cons]
    obtain ⟨ih1, ih2⟩ := ih (a + 1) (b + 1) (storePos m b ⟨a, 0⟩)
    constructor
    · intro x hx
      rw [ih1 x (by omega), lookup_storePos_ne m b x ⟨a, 0⟩ (by omega)]
    · intro i hi
      cases i with
      | zero =>
        rw [show b + 0 = b from rfl, ih1 b (by omega), lookup_storePos_self]
        rfl
      | succ j =>
        rw [show b + (j + 1) = (b + 1) + j by omega, ih2 j (by omega),
          show a + 1 + j = a + (j + 1) by omega]

theorem makeEdgeChain_short (m : List (Nat × LayerPosition)) (next : Nat) (e : Nat × Nat)
    (h : ¬ (posIn m e.1).Layer + 1 < (posIn m e.2).Layer) :
    makeEdgeChain m next e = ([e.1, e.2], m, next) := by
  simp only [makeEdgeChain]
  rw [if_neg h]

theorem makeEdgeChain_long (m : List (Nat × LayerPosition)) (next : Nat) (e : Nat × Nat)
    (h : (posIn m e.1).Layer + 1 < (posIn m e.2).Layer) :
    makeEdgeChain m next e =
      (e.1 :: List.range' next ((posIn m e.2).Layer - ((posIn m e.1).Layer + 1)) ++ [e.2],
       ((List.range' ((posIn m e.1).Layer + 1)
            ((posIn m e.2).Layer - ((posIn m e.1).Layer + 1))).zip
          (List.range' next ((posIn m e.2).Layer - ((posIn m e.1).Layer + 1)))).foldl
         (fun acc p => storePos acc p.2 ⟨p.1, 0⟩) m,
       next + ((posIn m e.2).Layer - ((posIn m e.1).Layer + 1))) := by
  simp only [makeEdgeChain]
  rw [if_pos h]
  rw [length_range'_eq]

theorem fakeChain_good (m : List (Nat × LayerPosition)) (u v next l1 l2 K : Nat)
    (hu : u < next) (hv : v < next)
    (hlu : (posIn m u).Layer = l1) (hlv : (posIn m v).Layer = l2)
    (hK : l1 + 1 + K = l2) (hK1 : 1 ≤ K) :
    chainGood
      (((List.range' (l1 + 1) K).zip (List.range' next K)).foldl
        (fun acc p => storePos acc p.2 ⟨p.1, 0⟩) m)
      (u :: List.range' next K ++ [v]) := by
  obtain ⟨hf1, hf2⟩ := fakeFold_lookup K (l1 + 1) next m
  have hidx : ∀ idx, idx ≤ K + 1 →
      (posIn (((List.range' (l1 + 1) K).zip (List.range' next K)).foldl
          (fun acc p => storePos acc p.2 ⟨p.1, 0⟩) m)
        ((u :: List.range' next K ++ [v]).getD idx 0)).Layer = l1 + idx := by
    intro idx hi
    cases idx with
    | zero =>
      show (posIn _ u).Layer = l1 + 0
      unfold posIn at hlu ⊢
      rw [hf1 u hu]
      omega
    | succ j =>
      rw [List.cons_append, List.getD_cons_succ]
      by_cases hj : j < K
      · rw [getD_append_lt _ _ j (by rw [length_range'_eq]; exact hj), range'_getD next K j hj]
        unfold posIn
        rw [hf2 j hj]
        show l1 + 1 + j = l1 + (j + 1)
        omega
      · have hjK : j = K := by omega
        rw [hjK, getD_append_len _ _ K (by rw [length_range'_eq])]
        show (posIn _ v).Layer = l1 + (K + 1)
        unfold posIn at hlv ⊢
        rw [hf1 v hv]
        omega
  intro k hk
  have hlen : (u :: List.range' next K ++ [v]).length = K + 2 := by
    simp [length_range'_eq]
  rw [hlen] at hk
  rw [hidx (k + 1) (by omega), hidx k (by omega)]
  omega

theorem makeEdgeChain_spec (m : List (Nat × LayerPosition)) (next : Nat) (e : Nat × Nat)
    (hlay : (posIn m e.1).Layer + 1 ≤ (posIn m e.2).Layer)
    (he1 : e.1 < next) (he2 : e.2 < next) :
    next ≤ (makeEdgeChain m next e).2.2 ∧
    (∀ x, x < next → ((makeEdgeChain m next e).2.1.lookup x) = m.lookup x) ∧
    chainGood (makeEdgeChain m next e).2.1 (makeEdgeChain m next e).1 ∧
    (∀ x ∈ (makeEdgeChain m next e).1, x < (makeEdgeChain m next e).2.2) ∧
    ((makeEdgeChain m next e).1.length = 2 → (makeEdgeChain m next e).1 = [e.1, e.2]) ∧
    2 ≤ (makeEdgeChain m next e).1.length := by
  by_cases hsplit : (posIn m e.1).Layer + 1 < (posIn m e.2).Layer
  · rw [makeEdgeChain_long m next e hsplit]
    have hlen : (e.1 :: List.range' next ((posIn m e.2).Layer - ((posIn m e.1).Layer + 1))
        ++ [e.2]).length = ((posIn m e.2).Layer - ((posIn m e.1).Layer + 1)) + 2 := by
      simp [length_range'_eq]
    refine ⟨?_, ?_, ?_, ?_, ?_, ?_⟩
    · show next ≤ next + _
      omega
    · intro x hx
      exact (fakeFold_lookup _ _ next m).1 x hx
    · exact fakeChain_good m e.1 e.2 next (posIn m e.1).Layer (posIn m e.2).Layer
        ((posIn m e.2).Layer - ((posIn m e.1).Layer + 1)) he1 he2 rfl rfl
        (by omega) (by omega)
    · intro x hx
      show x < next + ((posIn m e.2).Layer - ((posIn m e.1).Layer + 1))
      rcases List.mem_cons.mp hx with rfl | hx
      · omega
      · rcases List.mem_append.mp hx with hx | hx
        · have := mem_range'_bounds next _ x hx
          omega
        · have hxe : x = e.2 := by simpa using hx
          omega
    · intro h2
      rw [hlen] at h2
      omega
    · show 2 ≤ _
      rw [hlen]
      omega
  · rw [makeEdgeChain_short m next e hsplit]
    refine ⟨le_refl _, fun x _ => rfl, ?_, ?_, fun _ => rfl, by simp⟩
    · intro k hk
      have hk0 : k = 0 := by
        simp at hk
        omega
      subst hk0
      show (posIn m e.2).Layer = (posIn m e.1).Layer + 1
      omega
    · intro x hx
      show x < next
      rcases List.mem_cons.mp hx with rfl | hx
      · exact he1
      · have hxe : x = e.2 := by simpa using hx
        omega

theorem foldl_max_ge (l : List (Nat × Nat)) :
    ∀ acc : Nat, acc ≤ l.foldl (fun m e => max (max m e.1) e.2) acc ∧
      ∀ e ∈ l, e.1 ≤ l.foldl (fun m e => max (max m e.1) e.2) acc ∧
               e.2 ≤ l.foldl (fun m e => max (max m e.1) e.2) acc := by
  induction l with
  | nil => intro acc; exact ⟨le_refl _, by simp⟩
  | cons a l ih =>
    intro acc
    rw [List.foldl_cons]
    obtain ⟨h1, h2⟩ := ih (max (max acc a.1) a.2)
    have hstep : acc ≤ max (max acc a.1) a.2 :=
      le_trans (le_max_left _ _) (le_max_left _ _)
    refine ⟨le_trans hstep h1, ?_⟩
    intro e he
    rcases List.mem_cons.mp he with rfl | he
    · exact ⟨le_trans (le_trans (le_max_right _ _) (le_max_left _ _)) h1,
        le_trans (le_max_right _ _) h1⟩
    · exact h2 e he

theorem maxNodeID_ge (g : Graph) : ∀ e ∈ g.edges,
    e.1 ≤ maxNodeID g ∧ e.2 ≤ maxNodeID g := by
  intro e he
  unfold maxNodeID
  exact (foldl_max_ge g.edges 0).2 e he

theorem makeEdges_fold_inv (g : Graph) (m0 : List (Nat × LayerPosition))
    (hedges : ∀ e ∈ g.edges, (posIn m0 e.1).Layer + 1 ≤ (posIn m0 e.2).Layer) :
    ∀ (el : List (Nat × Nat)), (∀ e ∈ el, e ∈ g.edges) →
      ∀ st, MInv g m0 st →
        MInv g m0 (el.foldl
          (fun (st : List ((Nat × Nat) × List Nat) × List (Nat × LayerPosition) × Nat)
               (e : Nat × Nat) =>
            let (chain, m', next') := makeEdgeChain st.2.1 st.2.2 e
            (st.1 ++ [(e, chain)], m', next')) st) := by
  intro el
  induction el with
  | nil => intro _ st h; exact h
  | cons e el ih =>
    intro hsub st hst
    rw [List.foldl_cons]
    obtain ⟨hW1, hW2, hW3⟩ := hst
    have heg : e ∈ g.edges := hsub e (List.mem_cons_self _ _)
    obtain ⟨hb1, hb2⟩ := maxNodeID_ge g e heg
    have hlay0 := hedges e heg
    have hlay : (posIn st.2.1 e.1).Layer + 1 ≤ (posIn st.2.1 e.2).Layer := by
      unfold posIn at hlay0 ⊢
      rw [hW2 e.1 hb1, hW2 e.2 hb2]
      exact hlay0
    obtain ⟨hs1, hs2, hs3, hs4, hs5, hs6⟩ :=
      makeEdgeChain_spec st.2.1 st.2.2 e hlay (by omega) (by omega)
    refine ih (fun e' he' => hsub e' (List.mem_cons_of_mem _ he')) _ ?_
    show MInv g m0
      (st.1 ++ [(e, (makeEdgeChain st.2.1 st.2.2 e).1)],
       (makeEdgeChain st.2.1 st.2.2 e).2.1, (makeEdgeChain st.2.1 st.2.2 e).2.2)
    refine ⟨?_, ?_, ?_⟩
    · show maxNodeID g < (makeEdgeChain st.2.1 st.2.2 e).2.2
      omega
    · intro x hx
      show (makeEdgeChain st.2.1 st.2.2 e).2.1.lookup x = m0.lookup x
      rw [hs2 x (by omega)]
      exact hW2 x hx
    · show ∀ ec ∈ st.1 ++ [(e, (makeEdgeChain st.2.1 st.2.2 e).1)],
        chainGood (makeEdgeChain st.2.1 st.2.2 e).2.1 ec.2 ∧
        (∀ x ∈ ec.2, x < (makeEdgeChain st.2.1 st.2.2 e).2.2) ∧
        (ec.2.length = 2 → ec.2 = [ec.1.1, ec.1.2]) ∧ 2 ≤ ec.2.length
      intro ec hec
      rcases List.mem_append.mp hec with hec | hec
      · obtain ⟨hg, hb, hl2, hlen⟩ := hW3 ec hec
        refine ⟨?_, ?_, hl2, hlen⟩
        · intro k hk
          have hm1 : ∀ y ∈ ec.2, posIn (makeEdgeChain st.2.1 st.2.2 e).2.1 y = posIn st.2.1 y := by
            intro y hy
            unfold posIn
            rw [hs2 y (hb y hy)]
          rw [hm1 _ (getD_mem_of_lt ec.2 (k + 1) hk),
            hm1 _ (getD_mem_of_lt ec.2 k (by omega))]
          exact hg k hk
        · intro x hx
          exact lt_of_lt_of_le (hb x hx) hs1
      · have hec1 : ec = (e, (makeEdgeChain st.2.1 st.2.2 e).1) := by simpa using hec
        subst hec1
        exact ⟨hs3, hs4, hs5, hs6⟩

theorem mem_zip_tail (l : List Nat) :
    ∀ s : Nat × Nat, s ∈ l.zip l.tail →
      ∃ k, k + 1 < l.length ∧ s.1 = l.getD k 0 ∧ s.2 = l.getD (k + 1) 0 := by
  induction l with
  | nil => intro s hs; simp at hs
  | cons a l ih =>
    intro s hs
    cases l with
    | nil => simp at hs
    | cons b l =>
      rcases List.mem_cons.mp hs with rfl | hs
      · exact ⟨0, by simp, rfl, rfl⟩
      · obtain ⟨k, hk, h1, h2⟩ := ih s hs
        refine ⟨k + 1, ?_, h1, h2⟩
        simp only [List.length_cons] at hk ⊢
        omega

theorem makeSegments_layer (ecs : List ((Nat × Nat) × List Nat))
    (m : List (Nat × LayerPosition))
    (hecs : ∀ ec ∈ ecs, chainGood m ec.2 ∧ (ec.2.length = 2 → ec.2 = [ec.1.1, ec.1.2])) :
    ∀ s ∈ makeSegments ecs, (posIn m s.2).Layer = (posIn m s.1).Layer + 1 := by
  intro s hs
  unfold makeSegments at hs
  rw [List.mem_flatMap] at hs
  obtain ⟨ec, hec, hsmem⟩ := hs
  obtain ⟨hgood, hshape⟩ := hecs ec hec
  by_cases h2 : ec.2.length = 2
  · rw [if_pos (by simpa using h2)] at hsmem
    have hse : s = ec.1 := by simpa using hsmem
    subst hse
    have hch := hshape h2
    have hk := hgood 0 (by omega)
    rw [hch] at hk
    exact hk
  · rw [if_neg (by simpa using h2)] at hsmem
    by_cases h3 : 2 < ec.2.length
    · rw [if_pos (by simpa using h3)] at hsmem
      obtain ⟨k, hk, hs1, hs2⟩ := mem_zip_tail ec.2 s hsmem
      rw [hs1, hs2]
      exact hgood k hk
    · rw [if_neg (by simpa using h3)] at hsmem
      simp at hsmem

theorem gC2_wf : WellFounded (fun u v : Nat => (u, v) ∈ gC2.edges) := by
  have hsub : Subrelation (fun u v : Nat => (u, v) ∈ gC2.edges)
      (fun u v : Nat => u < v) := by
    intro u v h
    simp [gC2] at h
    rcases h with ⟨rfl, rfl⟩ | ⟨rfl, rfl⟩ | ⟨rfl, rfl⟩ <;> omega
  exact Subrelation.wf hsub (Nat.lt_wfRel.wf)

/-- C2: for every input graph whose edges stay inside the node set and form
a well-founded (acyclic) relation, every segment of the constructed layered
graph descends exactly one layer. -/
theorem segments_unit_length (fuel : Nat) (g : Graph) (lg : LayeredGraph)
    (hres : NewLayeredGraph fuel g = some lg)
    (hclosed : ∀ e ∈ g.edges, e.1 ∈ g.nodes ∧ e.2 ∈ g.nodes)
    (hacyc : WellFounded (fun u v : Nat => (u, v) ∈ g.edges)) :
    ∀ s ∈ lg.Segments, (lg.pos s.2).Layer = (lg.pos s.1).Layer + 1 := by
  unfold NewLayeredGraph at hres
  cases hassign : assignLevels fuel g with
  | none =>
    rw [hassign] at hres
    exact Option.noConfusion hres
  | some pos =>
    rw [hassign] at hres
    have h2 : some ({ NodePosition := (makeEdges g pos).2,
                      Segments := makeSegments (makeEdges g pos).1,
                      Dummy := makeDummy (makeEdges g pos).1,
                      Edges := (makeEdges g pos).1 } : LayeredGraph) = some lg := hres
    have h3 := Option.some.inj h2
    subst h3
    show ∀ s ∈ makeSegments (makeEdges g pos).1,
      (posIn (makeEdges g pos).2 s.2).Layer = (posIn (makeEdges g pos).2 s.1).Layer + 1
    have hedges := assignLevels_spec fuel g pos hassign hclosed hacyc
    have hinv0 : MInv g pos ([], pos, maxNodeID g + 1) := by
      refine ⟨?_, ?_, ?_⟩
      · show maxNodeID g < maxNodeID g + 1
        omega
      · intro x _
        rfl
      · intro ec hec
        simp at hec
    have hinv := makeEdges_fold_inv g pos hedges g.edges (fun e he => he)
      ([], pos, maxNodeID g + 1) hinv0
    have hproj1 : (makeEdges g pos).1 =
        (g.edges.foldl
          (fun (st : List ((Nat × Nat) × List Nat) × List (Nat × LayerPosition) × Nat)
               (e : Nat × Nat) =>
            let (chain, m', next') := makeEdgeChain st.2.1 st.2.2 e
            (st.1 ++ [(e, chain)], m', next')) ([], pos, maxNodeID g + 1)).1 := rfl
    have hproj2 : (makeEdges g pos).2 =
        (g.edges.foldl
          (fun (st : List ((Nat × Nat) × List Nat) × List (Nat × LayerPosition) × Nat)
               (e : Nat × Nat) =>
            let (chain, m', next') := makeEdgeChain st.2.1 st.2.2 e
            (st.1 ++ [(e, chain)], m', next')) ([], pos, maxNodeID g + 1)).2.1 := rfl
    obtain ⟨_, _, hW3⟩ := hinv
    refine makeSegments_layer (makeEdges g pos).1 (makeEdges g pos).2 ?_
    intro ec hec
    rw [hproj1] at hec
    obtain ⟨hg, _, hl2, _⟩ := hW3 ec hec
    rw [hproj2]
    exact ⟨hg, hl2⟩

theorem segments_unit_length_witness :
    (NewLayeredGraph 10 gC2 = some lgC2) ∧
    (∀ e ∈ gC2.edges, e.1 ∈ gC2.nodes ∧ e.2 ∈ gC2.nodes) ∧
    ∀ s ∈ lgC2.Segments, (lgC2.pos s.2).Layer = (lgC2.pos s.1).Layer + 1 :=
  ⟨by decide, by decide,
   segments_unit_length 10 gC2 lgC2 (by decide) (by decide) gC2_wf⟩

/-! ## Claim C7 — Warfield write-back preserves layers and renumbers orders -/

theorem lookup_some_mem (l : List (Nat × LayerPosition)) (n : Nat) (v : LayerPosition) :
    l.lookup n = some v → (n, v) ∈ l := by
  induction l with
  | nil => intro h; simp [List.lookup] at h
  | cons a l ih =>
    intro h
    rw [lookup_cons_ite] at h
    by_cases hn : n = a.1
    · rw [if_pos hn] at h
      injection h with h
      subst h
      subst hn
      left
    · rw [if_neg hn] at h
      exact List.mem_cons_of_mem _ (ih h)

theorem lookup_eq_none_of_not_mem (l : List (Nat × LayerPosition)) (n : Nat)
    (h : n ∉ l.map (fun q => q.1)) : l.lookup n = none := by
  induction l with
  | nil => rfl
  | cons a l ih =>
    rw [lookup_cons_ite]
    rw [List.map_cons, List.mem_cons] at h
    push_neg at h
    rw [if_neg h.1]
    exact ih h.2

theorem lookup_of_mem_nodup (l : List (Nat × LayerPosition)) (n : Nat) (v : LayerPosition)
    (hnd : (l.map (fun q => q.1)).Nodup) (hm : (n, v) ∈ l) : l.lookup n = some v := by
  induction l with
  | nil => simp at hm
  | cons a l ih =>
    rw [List.map_cons, List.nodup_cons] at hnd
    rw [lookup_cons_ite]
    rcases List.mem_cons.mp hm with rfl | hm
    · rw [if_pos rfl]
    · have hne : n ≠ a.1 := by
        intro he
        exact hnd.1 (he ▸ List.mem_map.mpr ⟨(n, v), hm, rfl⟩)
      rw [if_neg hne]
      exact ih hnd.2 hm

theorem keys_storePos (m : List (Nat × LayerPosition)) (n : Nat) (p : LayerPosition)
    (h : n ∈ m.map (fun q => q.1)) :
    (storePos m n p).map (fun q => q.1) = m.map (fun q => q.1) := by
  unfold storePos
  obtain ⟨q, hq, hq1⟩ := List.mem_map.mp h
  have hany : m.any (fun q => q.1 == n) = true :=
    List.any_eq_true.mpr ⟨q, hq, by simp [hq1]⟩
  rw [if_pos hany, List.map_map]
  refine List.map_congr_left ?_
  intro q' _
  show ((if (q'.1 == n) = true then (n, p) else q').1) = q'.1
  by_cases hq' : q'.1 = n
  · rw [if_pos (by simp [hq'])]
    exact hq'.symm
  · rw [if_neg (by simp [hq'])]

theorem storeRow_lookup_notmem (y : Nat) (row : List Nat) :
    ∀ (m : List (Nat × LayerPosition)) (x0 n : Nat), n ∉ row →
      (storeRow y m x0 row).lookup n = m.lookup n := by
  induction row with
  | nil => intro m x0 n _; rfl
  | cons c cs ih =>
    intro m x0 n hn
    rw [storeRow]
    rw [ih _ _ n (fun hm => hn (List.mem_cons_of_mem _ hm))]
    exact lookup_storePos_ne m c n _ (fun he => hn (he ▸ List.mem_cons_self _ _))

theorem storeRow_lookup_at (y : Nat) (row : List Nat) (hnd : row.Nodup) :
    ∀ (m : List (Nat × LayerPosition)) (x0 i : Nat), i < row.length →
      (storeRow y m x0 row).lookup (row.getD i 0) = some ⟨y, x0 + i⟩ := by
  induction row with
  | nil => intro m x0 i hi; simp at hi
  | cons c cs ih =>
    rw [List.nodup_cons] at hnd
    intro m x0 i hi
    cases i with
    | zero =>
      rw [storeRow]
      show (storeRow y (storePos m c ⟨y, x0⟩) (x0 + 1) cs).lookup c = some ⟨y, x0 + 0⟩
      rw [storeRow_lookup_notmem y cs _ _ c hnd.1, lookup_storePos_self]
      rfl
    | succ j =>
      rw [storeRow, List.getD_cons_succ]
      rw [show x0 + (j + 1) = (x0 + 1) + j by omega]
      exact ih hnd.2 _ (x0 + 1) j (by simpa using hi)

theorem storeRow_keys (y : Nat) (row : List Nat) :
    ∀ (m : List (Nat × LayerPosition)) (x0 : Nat), (∀ c ∈ row, c ∈ m.map (fun q => q.1)) →
      (storeRow y m x0 row).map (fun q => q.1) = m.map (fun q => q.1) := by
  induction row with
  | nil => intro m x0 _; rfl
  | cons c cs ih =>
    intro m x0 hsub
    rw [storeRow]
    have hk := keys_storePos m c ⟨y, x0⟩ (hsub c (List.mem_cons_self _ _))
    rw [ih _ (x0 + 1) (fun c' hc' => by
      rw [hk]
      exact hsub c' (List.mem_cons_of_mem _ hc'))]
    exact hk

theorem storeLayers_lookup_notmem (rows : List (List Nat)) :
    ∀ (m : List (Nat × LayerPosition)) (y0 n : Nat), n ∉ rows.flatten →
      (storeLayers m y0 rows).lookup n = m.lookup n := by
  induction rows with
  | nil => intro m y0 n _; rfl
  | cons r rs ih =>
    intro m y0 n hn
    rw [List.flatten_cons] at hn
    rw [storeLayers]
    rw [ih _ _ n (fun hm => hn (List.mem_append.mpr (Or.inr hm)))]
    exact storeRow_lookup_notmem y0 r m 0 n (fun hm => hn (List.mem_append.mpr (Or.inl hm)))

theorem storeLayers_lookup_at (rows : List (List Nat)) :
    ∀ (m : List (Nat × LayerPosition)) (y0 : Nat), rows.flatten.Nodup →
      ∀ yi, yi < rows.length → ∀ x, x < (rows.getD yi []).length →
        (storeLayers m y0 rows).lookup ((rows.getD yi []).getD x 0) =
          some ⟨y0 + yi, x⟩ := by
  induction rows with
  | nil => intro m y0 _ yi hyi; simp at hyi
  | cons r rs ih =>
    intro m y0 hnd yi hyi x hx
    rw [List.flatten_cons, List.nodup_append] at hnd
    obtain ⟨hr, hrs, hdisj⟩ := hnd
    rw [storeLayers]
    cases yi with
    | zero =>
      have hmem : r.getD x 0 ∈ r := getD_mem_of_lt r x (by simpa using hx)
      have hnot : r.getD x 0 ∉ rs.flatten := fun hc => hdisj hmem hc
      rw [show ((r :: rs).getD 0 []) = r from rfl]
      rw [storeLayers_lookup_notmem rs _ _ _ hnot]
      have h0 := storeRow_lookup_at y0 r hr m 0 x (by simpa using hx)
      rw [h0, Nat.zero_add]
      rfl
    | succ j =>
      rw [show ((r :: rs).getD (j + 1) []) = rs.getD j [] from rfl]
      rw [show y0 + (j + 1) = (y0 + 1) + j by omega]
      exact ih _ (y0 + 1) hrs j (by simpa using hyi) x (by simpa using hx)

theorem storeLayers_keys (rows : List (List Nat)) :
    ∀ (m : List (Nat × LayerPosition)) (y0 : Nat),
      (∀ c ∈ rows.flatten, c ∈ m.map (fun q => q.1)) →
      (storeLayers m y0 rows).map (fun q => q.1) = m.map (fun q => q.1) := by
  induction rows with
  | nil => intro m y0 _; rfl
  | cons r rs ih =>
    intro m y0 hsub
    rw [storeLayers]
    have hk := storeRow_keys y0 r m 0 (fun c hc =>
      hsub c (by rw [List.flatten_cons]; exact List.mem_append.mpr (Or.inl hc)))
    rw [ih _ (y0 + 1) (fun c hc => by
      rw [hk]
      exact hsub c (by rw [List.flatten_cons]; exact List.mem_append.mpr (Or.inr hc)))]
    exact hk

theorem foldl_max_layer_ge (l : List (Nat × LayerPosition)) :
    ∀ acc : Nat, acc ≤ l.foldl (fun m p => max m p.2.Layer) acc ∧
      ∀ q ∈ l, q.2.Layer ≤ l.foldl (fun m p => max m p.2.Layer) acc := by
  induction l with
  | nil => intro acc; exact ⟨le_refl _, by simp⟩
  | cons a l ih =>
    intro acc
    rw [List.foldl_cons]
    obtain ⟨h1, h2⟩ := ih (max acc a.2.Layer)
    refine ⟨le_trans (le_max_left _ _) h1, ?_⟩
    intro q hq
    rcases List.mem_cons.mp hq with rfl | hq
    · exact le_trans (le_max_right _ _) h1
    · exact h2 q hq

theorem maxLayer_ge (lg : LayeredGraph) :
    ∀ q ∈ lg.NodePosition, q.2.Layer ≤ lg.maxLayer :=
  fun q hq => (foldl_max_layer_ge lg.NodePosition 0).2 q hq

theorem getD_map_range {α : Type} (f : Nat → α) (n y : Nat) (d : α) (hy : y < n) :
    ((List.range n).map f).getD y d = f y := by
  rw [List.getD_eq_getElem _ _ (by simpa using hy), List.getElem_map, List.getElem_range]

theorem mem_layer_bucket (lg : LayeredGraph) (n y : Nat) :
    (n ∈ List.insertionSort (fun a b => (lg.pos a).Order ≤ (lg.pos b).Order)
      ((lg.NodePosition.filter (fun p => p.2.Layer == y)).map (fun q => q.1))) ↔
    ∃ p, (n, p) ∈ lg.NodePosition ∧ p.Layer = y := by
  rw [(List.perm_insertionSort _ _).mem_iff]
  simp only [List.mem_map, List.mem_filter, beq_iff_eq]
  constructor
  · rintro ⟨q, ⟨hq, hql⟩, rfl⟩
    refine ⟨q.2, ?_, hql⟩
    rw [show ((q.1, q.2) : Nat × LayerPosition) = q from rfl]
    exact hq
  · rintro ⟨p, hp, hpl⟩
    exact ⟨(n, p), ⟨hp, hpl⟩, rfl⟩

theorem mem_layers_row (lg : LayeredGraph) (n y : Nat) :
    n ∈ lg.Layers.getD y [] ↔ ∃ p, (n, p) ∈ lg.NodePosition ∧ p.Layer = y := by
  unfold LayeredGraph.Layers
  by_cases hy : y < lg.maxLayer + 1
  · rw [getD_map_range _ _ y _ hy]
    exact mem_layer_bucket lg n y
  · rw [List.getD_eq_default _ _
      (by simp only [List.length_map, List.length_range]; omega)]
    refine iff_of_false (by simp) ?_
    rintro ⟨p, hp, hpl⟩
    have := maxLayer_ge lg (n, p) hp
    simp only [] at this
    omega

theorem layers_length (lg : LayeredGraph) : lg.Layers.length = lg.maxLayer + 1 := by
  unfold LayeredGraph.Layers
  simp

theorem layers_row_nodup (lg : LayeredGraph)
    (hnd : (lg.NodePosition.map (fun q => q.1)).Nodup) :
    ∀ row ∈ lg.Layers, row.Nodup := by
  intro row hrow
  unfold LayeredGraph.Layers at hrow
  obtain ⟨y, _, rfl⟩ := List.mem_map.mp hrow
  refine ((List.perm_insertionSort _ _).nodup_iff).mpr ?_
  exact List.Nodup.sublist (List.Sublist.map _ (List.filter_sublist _)) hnd

theorem layers_flatten_nodup (lg : LayeredGraph)
    (hnd : (lg.NodePosition.map (fun q => q.1)).Nodup) : lg.Layers.flatten.Nodup := by
  rw [List.nodup_flatten]
  refine ⟨layers_row_nodup lg hnd, ?_⟩
  unfold LayeredGraph.Layers
  rw [List.pairwise_map]
  refine List.Pairwise.imp ?_ (List.pairwise_lt_range _)
  intro y y' hyy n hn hn'
  obtain ⟨p, hp, hpl⟩ := (mem_layer_bucket lg n y).mp hn
  obtain ⟨p', hp', hpl'⟩ := (mem_layer_bucket lg n y').mp hn'
  have h1 := lookup_of_mem_nodup lg.NodePosition n p hnd hp
  have h2 := lookup_of_mem_nodup lg.NodePosition n p' hnd hp'
  rw [h1] at h2
  injection h2 with h2
  subst h2
  omega

theorem getD_mem_rows (l : List (List Nat)) : ∀ k, k < l.length → l.getD k [] ∈ l := by
  induction l with
  | nil => intro k hk; simp at hk
  | cons a l ih =>
    intro k hk
    cases k with
    | zero => exact List.mem_cons_self _ _
    | succ k =>
      rw [show ((a :: l).getD (k + 1) []) = l.getD k [] from rfl]
      exact List.mem_cons_of_mem _ (ih k (by simpa using hk))

theorem keys_sub_flatten (lg : LayeredGraph) :
    ∀ q ∈ lg.NodePosition, q.1 ∈ lg.Layers.flatten := by
  intro q hq
  rw [List.mem_flatten]
  have hlt : q.2.Layer < lg.Layers.length := by
    rw [layers_length]
    have := maxLayer_ge lg q hq
    omega
  refine ⟨lg.Layers.getD q.2.Layer [], getD_mem_rows _ _ hlt, ?_⟩
  refine (mem_layers_row lg q.1 q.2.Layer).mpr ⟨q.2, ?_, rfl⟩
  rw [show ((q.1, q.2) : Nat × LayerPosition) = q from rfl]
  exact hq

theorem flatten_sub_keys (lg : LayeredGraph) :
    ∀ n ∈ lg.Layers.flatten, n ∈ lg.NodePosition.map (fun q => q.1) := by
  intro n hn
  rw [List.mem_flatten] at hn
  obtain ⟨row, hrow, hnrow⟩ := hn
  unfold LayeredGraph.Layers at hrow
  obtain ⟨y, _, rfl⟩ := List.mem_map.mp hrow
  obtain ⟨p, hp, _⟩ := (mem_layer_bucket lg n y).mp hnrow
  exact List.mem_map.mpr ⟨(n, p), hp, rfl⟩

theorem permRows_trans {a b c : List (List Nat)} (hab : List.Forall₂ List.Perm a b)
    (hbc : List.Forall₂ List.Perm b c) : List.Forall₂ List.Perm a c := by
  induction hab generalizing c with
  | nil =>
    cases hbc
    exact List.Forall₂.nil
  | cons h t ih =>
    cases hbc with
    | cons h' t' => exact List.Forall₂.cons (h.trans h') (ih t')

theorem permRows_getD {a b : List (List Nat)} (h : List.Forall₂ List.Perm a b) :
    ∀ i, (a.getD i []).Perm (b.getD i []) := by
  induction h with
  | nil => intro i; exact List.Perm.refl _
  | cons h t ih =>
    intro i
    cases i with
    | zero => exact h
    | succ j => exact ih j

theorem permRows_flatten {a b : List (List Nat)} (h : List.Forall₂ List.Perm a b) :
    a.flatten.Perm b.flatten := by
  induction h with
  | nil => exact List.Perm.refl _
  | cons h t ih =>
    rw [List.flatten_cons, List.flatten_cons]
    exact h.append ih

theorem copyLayers_eq (d : List (List Nat)) :
    ∀ s : List (List Nat), d.length = s.length →
      (∀ i, (d.getD i []).length = (s.getD i []).length) → copyLayers d s = s := by
  induction d with
  | nil =>
    intro s hlen _
    cases s with
    | nil => rfl
    | cons s0 ss => simp at hlen
  | cons d0 ds ih =>
    intro s hlen hrow
    cases s with
    | nil => simp at hlen
    | cons s0 ss =>
      show copyRow d0 s0 :: copyLayers ds ss = s0 :: ss
      have h0 : d0.length = s0.length := hrow 0
      have hcr : copyRow d0 s0 = s0 := by
        unfold copyRow
        rw [h0, min_self, List.take_length, ← h0, List.drop_length, List.append_nil]
      rw [hcr, ih ss (by simpa using hlen) (fun i => hrow (i + 1))]

theorem optFold_perm (o : WarfieldOrderingOptimizer) (segs : List (Nat × Nat))
    (rows0 : List (List Nat)) (downUp : Bool) (jf : Nat → Nat)
    (hopt : ∀ (ls : List (List Nat)) (j : Nat),
      List.Forall₂ List.Perm ls (o.LayerOrderingOptimizer segs ls j downUp)) :
    ∀ (idxs : List Nat) (ls : List (List Nat)), List.Forall₂ List.Perm rows0 ls →
      List.Forall₂ List.Perm rows0
        (idxs.foldl (fun ls i => o.LayerOrderingOptimizer segs ls (jf i) downUp) ls) := by
  intro idxs
  induction idxs with
  | nil => intro ls h; exact h
  | cons i idxs ih =>
    intro ls h
    rw [List.foldl_cons]
    exact ih _ (permRows_trans h (hopt ls (jf i)))

theorem sweep_perm (o : WarfieldOrderingOptimizer) (segs : List (Nat × Nat))
    (rows0 : List (List Nat)) (downUp : Bool)
    (hopt : ∀ (segs' : List (Nat × Nat)) (ls : List (List Nat)) (j : Nat) (d : Bool),
      List.Forall₂ List.Perm ls (o.LayerOrderingOptimizer segs' ls j d))
    (ls : List (List Nat)) (h : List.Forall₂ List.Perm rows0 ls) :
    List.Forall₂ List.Perm rows0 (warfieldSweep o segs ls downUp) := by
  unfold warfieldSweep
  exact optFold_perm o segs rows0 downUp
    (fun i => if downUp then ls.length - 1 - i else i)
    (fun ls' j => hopt segs ls' j downUp) (List.range ls.length) ls h

theorem warfieldLoop_perm (o : WarfieldOrderingOptimizer) (segs : List (Nat × Nat))
    (rows0 : List (List Nat))
    (hopt : ∀ (segs' : List (Nat × Nat)) (ls : List (List Nat)) (j : Nat) (d : Bool),
      List.Forall₂ List.Perm ls (o.LayerOrderingOptimizer segs' ls j d)) :
    ∀ (rem t : Nat) (layers : List (List Nat)) (bestN : Int) (best : List (List Nat)),
      List.Forall₂ List.Perm rows0 layers → List.Forall₂ List.Perm rows0 best →
      List.Forall₂ List.Perm rows0 (warfieldLoop o segs rem t layers bestN best) := by
  intro rem
  induction rem with
  | zero =>
    intro t layers bestN best _ hb
    exact hb
  | succ rem ih =>
    intro t layers bestN best hl hb
    simp only [warfieldLoop]
    have hl' : List.Forall₂ List.Perm rows0 (warfieldSweep o segs layers (t % 2 == 0)) :=
      sweep_perm o segs rows0 (t % 2 == 0) hopt layers hl
    have hb' : List.Forall₂ List.Perm rows0
        (if bestN < 0 ∨ numCrossings segs (warfieldSweep o segs layers (t % 2 == 0)) < bestN
         then copyLayers best (warfieldSweep o segs layers (t % 2 == 0)) else best) := by
      by_cases hc : bestN < 0 ∨
          numCrossings segs (warfieldSweep o segs layers (t % 2 == 0)) < bestN
      · rw [if_pos hc]
        rw [copyLayers_eq best _
          ((hb.length_eq.symm).trans hl'.length_eq)
          (fun i => ((permRows_getD hb i).length_eq.symm).trans
            (permRows_getD hl' i).length_eq)]
        exact hl'
      · rw [if_neg hc]
        exact hb
    by_cases hz : (numCrossings segs (warfieldSweep o segs layers (t % 2 == 0)) == 0) = true
    · rw [if_pos hz]
      exact hb'
    · rw [if_neg hz]
      exact ih (t + 1) _ _ _ hl' hb'

theorem disjoint_getD_rows (rows : List (List Nat)) :
    rows.flatten.Nodup → ∀ y y' : Nat, y ≠ y' →
      ∀ a, a ∈ rows.getD y [] → a ∈ rows.getD y' [] → False := by
  induction rows with
  | nil =>
    intro _ y y' _ a ha _
    cases y <;> simp at ha
  | cons r rs ih =>
    intro hnd y y' hne a ha ha'
    rw [List.flatten_cons, List.nodup_append] at hnd
    obtain ⟨_, hrs, hdisj⟩ := hnd
    have hmem : ∀ j a', a' ∈ rs.getD j [] → a' ∈ rs.flatten := by
      intro j a' hj
      by_cases hjl : j < rs.length
      · exact List.mem_flatten.mpr ⟨rs.getD j [], getD_mem_rows rs j hjl, hj⟩
      · rw [List.getD_eq_default _ _ (by omega)] at hj
        simp at hj
    cases y with
    | zero =>
      cases y' with
      | zero => exact hne rfl
      | succ j' =>
        exact hdisj ha (hmem j' a ha')
    | succ j =>
      cases y' with
      | zero => exact hdisj ha' (hmem j a ha)
      | succ j' => exact ih hrs j j' (by omega) a ha ha'

/-- C7: provided the configured initializer and layer optimizer only permute
nodes within layers, `WarfieldOrderingOptimizer.Optimize` keeps every
node's layer, and the orders written into each layer of `L` nodes are
exactly `{0, …, L-1}`. -/
theorem warfield_optimize_layers_orders (o : WarfieldOrderingOptimizer)
    (lg : LayeredGraph)
    (hinit : ∀ (segs : List (Nat × Nat)) (ls : List (List Nat)),
      List.Forall₂ List.Perm ls (o.LayerOrderingInitializer segs ls))
    (hopt : ∀ (segs : List (Nat × Nat)) (ls : List (List Nat)) (j : Nat) (d : Bool),
      List.Forall₂ List.Perm ls (o.LayerOrderingOptimizer segs ls j d))
    (hnd : (lg.NodePosition.map (fun q => q.1)).Nodup) :
    (∀ n p, lg.NodePosition.lookup n = some p →
      ∃ k, (o.Optimize lg).NodePosition.lookup n = some ⟨p.Layer, k⟩) ∧
    ∀ y, (((o.Optimize lg).NodePosition.filter (fun q => q.2.Layer == y)).map
        (fun q => q.2.Order)).Perm
      (List.range (((o.Optimize lg).NodePosition.filter
        (fun q => q.2.Layer == y)).length)) := by
  have hbest : List.Forall₂ List.Perm lg.Layers
      (warfieldLoop o lg.Segments o.Epochs 0
        (o.LayerOrderingInitializer lg.Segments lg.Layers) (-1)
        (newLayersFrom (o.LayerOrderingInitializer lg.Segments lg.Layers))) :=
    warfieldLoop_perm o lg.Segments lg.Layers hopt o.Epochs 0 _ (-1) _
      (hinit _ _) (hinit _ _)
  set best := warfieldLoop o lg.Segments o.Epochs 0
      (o.LayerOrderingInitializer lg.Segments lg.Layers) (-1)
      (newLayersFrom (o.LayerOrderingInitializer lg.Segments lg.Layers)) with hbestdef
  set M := storeLayers lg.NodePosition 0 best with hMdef
  have hM : (o.Optimize lg).NodePosition = M := rfl
  have hflnd : best.flatten.Nodup :=
    ((permRows_flatten hbest).nodup_iff).mp (layers_flatten_nodup lg hnd)
  have hflat_keys : ∀ c ∈ best.flatten, c ∈ lg.NodePosition.map (fun q => q.1) :=
    fun c hc => flatten_sub_keys lg c ((permRows_flatten hbest).mem_iff.mpr hc)
  have hKeq : M.map (fun q => q.1) = lg.NodePosition.map (fun q => q.1) :=
    storeLayers_keys best lg.NodePosition 0 hflat_keys
  have hndM : (M.map (fun q => q.1)).Nodup := by
    rw [hKeq]
    exact hnd
  have hloc : ∀ q ∈ lg.NodePosition, q.2.Layer < best.length ∧
      ∃ x, x < (best.getD q.2.Layer []).length ∧
        (best.getD q.2.Layer []).getD x 0 = q.1 := by
    intro q hq
    have hrow0 : q.1 ∈ lg.Layers.getD q.2.Layer [] := by
      refine (mem_layers_row lg q.1 q.2.Layer).mpr ⟨q.2, ?_, rfl⟩
      rw [show ((q.1, q.2) : Nat × LayerPosition) = q from rfl]
      exact hq
    have hrowb : q.1 ∈ best.getD q.2.Layer [] :=
      (permRows_getD hbest q.2.Layer).mem_iff.mp hrow0
    have hylt : q.2.Layer < best.length := by
      rw [← hbest.length_eq, layers_length]
      have := maxLayer_ge lg q hq
      omega
    obtain ⟨x, hx, hxe⟩ := List.mem_iff_getElem.mp hrowb
    exact ⟨hylt, x, hx, by rw [List.getD_eq_getElem _ _ hx]; exact hxe⟩
  have hVal : ∀ q ∈ lg.NodePosition, ∃ x,
      M.lookup q.1 = some ⟨q.2.Layer, x⟩ ∧
      x < (best.getD q.2.Layer []).length ∧ (best.getD q.2.Layer []).getD x 0 = q.1 := by
    intro q hq
    obtain ⟨hylt, x, hx, hxe⟩ := hloc q hq
    refine ⟨x, ?_, hx, hxe⟩
    have hat := storeLayers_lookup_at best lg.NodePosition 0 hflnd q.2.Layer hylt x hx
    rw [hxe, Nat.zero_add] at hat
    exact hat
  constructor
  · intro n p hlk
    have hq : (n, p) ∈ lg.NodePosition := lookup_some_mem _ _ _ hlk
    obtain ⟨x, hlkM, _, _⟩ := hVal (n, p) hq
    refine ⟨x, ?_⟩
    rw [hM]
    exact hlkM
  · intro y
    rw [hM]
    have hM'full : M = (lg.NodePosition.map (fun q => q.1)).map
        (fun k => (k, (M.lookup k).getD ⟨0, 0⟩)) := by
      have hcg : ∀ q ∈ M, (fun q' => (q'.1, (M.lookup q'.1).getD ⟨0, 0⟩)) q = id q := by
        intro q hq
        have hl : M.lookup q.1 = some q.2 := by
          refine lookup_of_mem_nodup M q.1 q.2 hndM ?_
          rw [show ((q.1, q.2) : Nat × LayerPosition) = q from rfl]
          exact hq
        show (q.1, (M.lookup q.1).getD ⟨0, 0⟩) = q
        rw [hl]
        rfl
      have hstep : M.map (fun q' => (q'.1, (M.lookup q'.1).getD ⟨0, 0⟩)) = M := by
        rw [List.map_congr_left hcg, List.map_id]
      rw [← hKeq, List.map_map]
      exact hstep.symm
    have hperm : ((lg.NodePosition.map (fun q => q.1)).filter
        ((fun q => q.2.Layer == y) ∘ fun k => (k, (M.lookup k).getD ⟨0, 0⟩))).Perm
        (best.getD y []) := by
      have hksynd : ((lg.NodePosition.map (fun q => q.1)).filter
          ((fun q => q.2.Layer == y) ∘ fun k => (k, (M.lookup k).getD ⟨0, 0⟩))).Nodup :=
        List.Nodup.sublist (List.filter_sublist _) hnd
      have hrownd : (best.getD y []).Nodup := by
        by_cases hybest : y < best.length
        · exact (List.nodup_flatten.mp hflnd).1 _ (getD_mem_rows best y hybest)
        · rw [List.getD_eq_default _ _ (by omega)]
          exact List.nodup_nil
      rw [List.perm_ext_iff_of_nodup hksynd hrownd]
      intro k
      constructor
      · intro hk
        rw [List.mem_filter] at hk
        obtain ⟨hkks, hkP⟩ := hk
        obtain ⟨q, hq, rfl⟩ := List.mem_map.mp hkks
        obtain ⟨x, hlk, hx, hxe⟩ := hVal q hq
        have h1 : (((M.lookup q.1).getD ⟨0, 0⟩).Layer == y) = true := hkP
        rw [hlk] at h1
        have hy' : q.2.Layer = y := by simpa using h1
        subst hy'
        rw [← hxe]
        exact getD_mem_of_lt _ x hx
      · intro hk
        by_cases hybest : y < best.length
        · have hkfl : k ∈ best.flatten :=
            List.mem_flatten.mpr ⟨_, getD_mem_rows best y hybest, hk⟩
          have hkks : k ∈ lg.NodePosition.map (fun q => q.1) := hflat_keys k hkfl
          obtain ⟨q, hq, rfl⟩ := List.mem_map.mp hkks
          obtain ⟨x, hlk, hx, hxe⟩ := hVal q hq
          have hkrow : q.1 ∈ best.getD q.2.Layer [] := by
            rw [← hxe]
            exact getD_mem_of_lt _ x hx
          have hy' : q.2.Layer = y := by
            by_contra hne
            exact disjoint_getD_rows best hflnd _ _ hne q.1 hkrow hk
          rw [List.mem_filter]
          refine ⟨List.mem_map.mpr ⟨q, hq, rfl⟩, ?_⟩
          show (((M.lookup q.1).getD ⟨0, 0⟩).Layer == y) = true
          rw [hlk]
          simp [hy']
        · rw [List.getD_eq_default _ _ (by omega)] at hk
          simp at hk
    have horder : (best.getD y []).map
        ((fun q => q.2.Order) ∘ fun k => (k, (M.lookup k).getD ⟨0, 0⟩)) =
        List.range (best.getD y []).length := by
      by_cases hybest : y < best.length
      · refine List.ext_getElem (by simp) ?_
        intro x h1 h2
        rw [List.getElem_map, List.getElem_range]
        have hx : x < (best.getD y []).length := by simpa using h1
        have hat := storeLayers_lookup_at best lg.NodePosition 0 hflnd y hybest x hx
        rw [List.getD_eq_getElem _ _ hx] at hat
        show (((M.lookup ((best.getD y [])[x])).getD ⟨0, 0⟩).Order) = x
        rw [hat]
        show (⟨0 + y, x⟩ : LayerPosition).Order = x
        rfl
      · rw [List.getD_eq_default _ _ (by omega)]
        rfl
    rw [hM'full, List.filter_map, List.map_map, List.length_map]
    rw [hperm.length_eq, ← horder]
    exact hperm.map _

theorem warfield_optimize_witness :
    ((lgC7.NodePosition.map (fun q => q.1)).Nodup) ∧
    ((∀ n p, lgC7.NodePosition.lookup n = some p →
      ∃ k, (oC7.Optimize lgC7).NodePosition.lookup n = some ⟨p.Layer, k⟩) ∧
    ∀ y, (((oC7.Optimize lgC7).NodePosition.filter (fun q => q.2.Layer == y)).map
        (fun q => q.2.Order)).Perm
      (List.range (((oC7.Optimize lgC7).NodePosition.filter
        (fun q => q.2.Layer == y)).length))) :=
  ⟨by decide,
   warfield_optimize_layers_orders oC7 lgC7
     (fun _ ls => List.forall₂_same.mpr (fun x _ => List.Perm.refl x))
     (fun _ ls _ _ => List.forall₂_same.mpr (fun x _ => List.Perm.refl x))
     (by decide)⟩
/-! ## Claim C9 — the assigner need not return at all -/

/-- C9: on `lgIterA` the `for { }` class-offset loop of
`BottomLeft.horizontalCompaction` never terminates, so with
`TopDownOnly = false` the claimed "returns a NodeId → x map" already fails:
no map is ever returned.  The first conjunct shows the loop state
`(j, k) = (0, 1)` — the state the layer-0 iteration reaches after walking
the first block — is revisited with nothing but fuel changed, for *every*
fuel and *every* shift accumulator: the `Order` tie of nodes `1, 2` makes
`k = Order(v) + 1` stick at `1` while the sink test `sink v1 !=
sink(layers[j][k])` compares a node with itself and never breaks.  The
second conjunct runs the whole assigner at its allotted fuel and observes
the propagated non-termination. -/
theorem bk_classloop_never_terminates :
    (∀ (f : Nat) (shift : Nat → Int),
      classLoopL lgIterA raC9.1 raC9.2 1 lgIterA.Layers st1C9.x st1C9.sink
        (fun j => j - 1) nfC9 f shift 0 1 = none) ∧
    (BrandesKopfLayersNodesHorizontalAssigner.NodesHorizontalCoordinates
      ⟨1, false⟩ lgIterA) = none := by
  constructor
  · intro f
    induction f with
    | zero => intro shift; rfl
    | succ f ih =>
      intro shift
      have hstep : classLoopL lgIterA raC9.1 raC9.2 1 lgIterA.Layers st1C9.x st1C9.sink
          (fun j => j - 1) nfC9 (f + 1) shift 0 1 =
        classLoopL lgIterA raC9.1 raC9.2 1 lgIterA.Layers st1C9.x st1C9.sink
          (fun j => j - 1) nfC9 f shift 0 1 := rfl
      rw [hstep]
      exact ih shift
  · decide
